import Mathlib

/-!
Verification of the schema-extraction pipeline of the
`concourse-jsonschema-generator` repository.

The development shallowly embeds the Rust sources:

* `src/lit/types.rs`, `src/lit.rs` — the markup node type and the markup
  grammar (`lit_parser`), shared verbatim with the copy embedded in
  `src/main.rs`;
* `src/schema/types.rs` — `Schema`, `Property`, `PropertyType`;
* `src/convert.rs` — the PEG type-expression grammar (`lit_type`), the
  text renderer, and the (partially present) group/orphan-aware extractor;
* `src/main.rs` — the self-contained older pipeline: its own string-splitting
  `parse_type`, its own renderer, and its `transform_to_jsonschemas`.

Machine integers do not occur; all Rust string manipulation is re-implemented
over `List Char` with structural or fueled recursion so that every definition
evaluates inside the kernel.  Rust `panic!` / out-of-range indexing is
modelled by `Option.none`.  Rust `str::len` is byte length; it is modelled as
character count, which agrees on the ASCII inputs the grammars accept.
-/

/-! ### Rust string-primitive replicas -/

/-- Splits a character list at every occurrence of `c`; the accumulator holds
the current (reversed) chunk.  Mirrors Rust `str::split` with a single-char
pattern: `split "" = [""]`, separators at the ends produce empty chunks. -/
def splitOnCharAux (c : Char) : List Char → List Char → List (List Char)
  | [], acc => [acc.reverse]
  | x :: xs, acc =>
    if x = c then acc.reverse :: splitOnCharAux c xs []
    else splitOnCharAux c xs (x :: acc)

/-- Rust `s.split(c)` for a one-character pattern. -/
def rustSplit (s : String) (c : Char) : List String :=
  (splitOnCharAux c s.data []).map String.mk

/-- Rust `str::trim`: strip leading and trailing whitespace. -/
def rustTrim (s : String) : String :=
  String.mk (((s.data.dropWhile Char.isWhitespace).reverse.dropWhile
    Char.isWhitespace).reverse)

/-- Rust `str::lines`: split on `'\n'`, strip one trailing `'\r'` per line,
no trailing empty line, and the empty string has no lines. -/
def rustLines (s : String) : List String :=
  if s.data.isEmpty then []
  else
    let parts := splitOnCharAux '\n' s.data []
    let parts := if s.data.getLast? = some '\n' then parts.dropLast else parts
    parts.map (fun l =>
      String.mk (if l.getLast? = some '\r' then l.dropLast else l))

/-- Helper for `rustReplace`; the fuel is the input length, and every step
consumes at least one character because the patterns used are nonempty. -/
def replaceAux (pat rep : List Char) : Nat → List Char → List Char
  | 0, cs => cs
  | _ + 1, [] => []
  | f + 1, c :: cs =>
    if pat.isPrefixOf (c :: cs) && !pat.isEmpty then
      rep ++ replaceAux pat rep f ((c :: cs).drop pat.length)
    else c :: replaceAux pat rep f cs

/-- Rust `str::replace`: replace all non-overlapping occurrences of `pat`
by `rep`, scanning left to right. -/
def rustReplace (s pat rep : String) : String :=
  String.mk (replaceAux pat.data rep.data (s.data.length + 1) s.data)

/-- Helper for `trimStartMatches`; fueled, strips one `pat` prefix per step. -/
def trimStartMatchesAux (pat : List Char) : Nat → List Char → List Char
  | 0, cs => cs
  | f + 1, cs =>
    if pat.isPrefixOf cs && !pat.isEmpty then
      trimStartMatchesAux pat f (cs.drop pat.length)
    else cs

/-- Rust `str::trim_start_matches`: repeatedly strip the prefix `pat`. -/
def trimStartMatches (s pat : String) : String :=
  String.mk (trimStartMatchesAux pat.data (s.data.length + 1) s.data)

/-- Rust `str::trim_end_matches`: repeatedly strip the suffix `pat`. -/
def trimEndMatches (s pat : String) : String :=
  String.mk ((trimStartMatchesAux pat.data.reverse (s.data.length + 1)
    s.data.reverse).reverse)

/-- Rust `str::starts_with`. -/
def rustStartsWith (s pre : String) : Bool := pre.data.isPrefixOf s.data

/-- Rust `str::ends_with`. -/
def rustEndsWith (s suf : String) : Bool := suf.data.isSuffixOf s.data

/-- Join a list of strings with a separator (Rust `[String]::join`). -/
def joinWith (sep : String) : List String → String
  | [] => ""
  | [x] => x
  | x :: xs => x ++ sep ++ joinWith sep xs

/-! ### The markup node type (`src/lit/types.rs`, duplicated in `src/main.rs`)

`LitNode::Fn(String, Vec<LitDocument>)` with `LitDocument = Vec<LitNode>`. -/

inductive LitNode where
  | Text (s : String)
  | Fn (name : String) (args : List (List LitNode))
  | Comment (s : String)

/-- The `LitDocument` from `src/lit/types.rs`. -/
abbrev LitDocument := List LitNode

/-! ### The markup grammar (`lit_parser` in `src/lit.rs` and `src/main.rs`)

The rust-peg grammar is embedded as a fueled recursive-descent parser over
`List Char`.  Ordered choice, greedy possessive repetition and
separator backtracking follow rust-peg semantics; the generated public rule
requires the whole input to be consumed and does not backtrack into the rule
when trailing input remains.  Fuel only bounds the recursion; the top-level
wrappers supply more fuel than any run can consume. -/

/-- Character class of `functionName`'s tail: `['a'..='z' | 'A'..='Z' | '0'..='9' | '-']`. -/
def isFunctionNameRest (c : Char) : Bool := c.isAlpha || c.isDigit || c = '-'

/-- Rule `functionName := [A-Za-z][A-Za-z0-9-]+` (two characters minimum). -/
def pFunctionName : List Char → Option (String × List Char)
  | [] => none
  | c :: cs =>
    if c.isAlpha then
      let tk := cs.takeWhile isFunctionNameRest
      if tk.isEmpty then none else some (String.mk (c :: tk), cs.drop tk.length)
    else none

/-- Scanner for `(!"-}" [_])+ "-}"`: content up to the first `-}`, plus the
rest after the terminator; `none` when the terminator is missing. -/
def scanCommentBody : List Char → Option (List Char × List Char)
  | '-' :: '}' :: rest => some ([], rest)
  | c :: rest =>
    match scanCommentBody rest with
    | some (cnt, r) => some (c :: cnt, r)
    | none => none
  | [] => none

/-- Rule `comment := "{-" (any char except "-}")+ "-}"`. -/
def pComment : List Char → Option (LitNode × List Char)
  | '{' :: '-' :: rest =>
    match scanCommentBody rest with
    | some (cnt, r) => if cnt.isEmpty then none else some (.Comment (String.mk cnt), r)
    | none => none
  | _ => none

/-- Scanner for `(!"}}}" [_])+ "}}}"` of `verbatimArgument`. -/
def scanVerbatimBody : List Char → Option (List Char × List Char)
  | '}' :: '}' :: '}' :: rest => some ([], rest)
  | c :: rest =>
    match scanVerbatimBody rest with
    | some (cnt, r) => some (c :: cnt, r)
    | none => none
  | [] => none

/-- Rule `verbatimArgument := "{{{" anyContent "}}}"`, one `Text` node. -/
def pVerbatimArgument : List Char → Option (List LitNode × List Char)
  | '{' :: '{' :: '{' :: rest =>
    match scanVerbatimBody rest with
    | some (cnt, r) => if cnt.isEmpty then none else some ([.Text (String.mk cnt)], r)
    | none => none
  | _ => none

/-- Characters the first `textContent` alternative accepts: anything but
`'\'`, `'{'`, `'}'`. -/
def isPlainTextChar (c : Char) : Bool := c ≠ '\\' && c ≠ '{' && c ≠ '}'

/-- One iteration of the `textContent` repetition, alternatives in grammar
order: a run of plain characters, the escapes `\\`, `\{`, `\}`, or a balanced
`{...}` span whose interior has no `}`.  Captures the matched source text. -/
def pTextIter (cs : List Char) : Option (List Char × List Char) :=
  let cls := cs.takeWhile isPlainTextChar
  if cls.isEmpty then
    match cs with
    | '\\' :: '\\' :: rest => some (['\\', '\\'], rest)
    | '\\' :: '{' :: rest => some (['\\', '{'], rest)
    | '\\' :: '}' :: rest => some (['\\', '}'], rest)
    | '{' :: rest =>
      let inner := rest.takeWhile (fun c => c ≠ '}')
      if inner.isEmpty then none
      else
        match rest.drop inner.length with
        | '}' :: r2 => some ('{' :: (inner ++ ['}']), r2)
        | _ => none
    | _ => none
  else some (cls, cs.drop cls.length)

/-- The `+` loop over `pTextIter`; every successful iteration consumes at
least one character, so fuel `length + 1` never runs out. -/
def pTextLoop : Nat → List Char → (List Char × List Char)
  | 0, cs => ([], cs)
  | f + 1, cs =>
    match pTextIter cs with
    | some (chunk, rest) =>
      let (more, r) := pTextLoop f rest
      (chunk ++ more, r)
    | none => ([], cs)

/-- Rule `textContent`: at least one iteration, capturing raw source text. -/
def pTextContent (cs : List Char) : Option (LitNode × List Char) :=
  match pTextLoop (cs.length + 1) cs with
  | ([], _) => none
  | (chunk, rest) => some (.Text (String.mk chunk), rest)

mutual

/-- Rule `doc := LitNode()*` (also the parse of argument bodies). -/
def pDoc : Nat → List Char → (List LitNode × List Char)
  | 0, cs => ([], cs)
  | f + 1, cs =>
    match pLitNode f cs with
    | some (n, rest) =>
      let (ns, r) := pDoc f rest
      (n :: ns, r)
    | none => ([], cs)

/-- Rule `LitNode := functionCall / comment / textContent`. -/
def pLitNode : Nat → List Char → Option (LitNode × List Char)
  | 0, _ => none
  | f + 1, cs =>
    match pFunctionCall f cs with
    | some r => some r
    | none =>
      match pComment cs with
      | some r => some r
      | none => pTextContent cs

/-- Rule `functionCall := "\" functionName argument*`. -/
def pFunctionCall : Nat → List Char → Option (LitNode × List Char)
  | 0, _ => none
  | f + 1, cs =>
    match cs with
    | '\\' :: rest =>
      match pFunctionName rest with
      | some (nm, r1) =>
        let (args, r2) := pArgs f r1
        some (.Fn nm args, r2)
      | none => none
    | _ => none

/-- The greedy `argument*` loop of `functionCall`. -/
def pArgs : Nat → List Char → (List (List LitNode) × List Char)
  | 0, cs => ([], cs)
  | f + 1, cs =>
    match pArgument f cs with
    | some (a, rest) =>
      let (args, r) := pArgs f rest
      (a :: args, r)
    | none => ([], cs)

/-- Rule `argument := verbatimArgument / preformattedArgument / regularArgument`. -/
def pArgument : Nat → List Char → Option (List LitNode × List Char)
  | 0, _ => none
  | f + 1, cs =>
    match pVerbatimArgument cs with
    | some r => some r
    | none =>
      match pPreformattedArgument f cs with
      | some r => some r
      | none => pRegularArgument f cs

/-- Rule `preformattedArgument := "{{" LitNode* "}}"`. -/
def pPreformattedArgument : Nat → List Char → Option (List LitNode × List Char)
  | 0, _ => none
  | f + 1, cs =>
    match cs with
    | '{' :: '{' :: rest =>
      match pDoc f rest with
      | (ns, '}' :: '}' :: r2) => some (ns, r2)
      | _ => none
    | _ => none

/-- Rule `regularArgument := "{" LitNode* "}"`. -/
def pRegularArgument : Nat → List Char → Option (List LitNode × List Char)
  | 0, _ => none
  | f + 1, cs =>
    match cs with
    | '{' :: rest =>
      match pDoc f rest with
      | (ns, '}' :: r2) => some (ns, r2)
      | _ => none
    | _ => none

end

/-- The `lit::parse` / the public `doc` rule: the whole input must be consumed,
otherwise the rust-peg wrapper reports a parse error (`none` here). -/
def lit_parse (s : String) : Option (List LitNode) :=
  match pDoc (8 * s.data.length + 16) s.data with
  | (doc, []) => some doc
  | _ => none

example : lit_parse "hello world" = some [.Text "hello world"] := rfl
example :
    lit_parse "\\bold\x7bhi\x7d" = some [.Fn "bold" [[.Text "hi"]]] := rfl
example : lit_parse "\x7b- note -\x7d" = some [.Comment " note "] := rfl
example : lit_parse "\\a" = none := rfl
example : lit_parse "\\\x7b" = some [.Text "\\\x7b"] := rfl

/-! ### Schema model (`src/schema/types.rs`)

`PropertyType` here is the `convert.rs`/`schema/types.rs` variant, which has
`Dict`; the copy in `main.rs` lacks `Dict` but is otherwise identical, and its
`parse_type` never produces `Dict`, so one Lean type faithfully carries both.
`Box<PropertyType>` is just `PropertyType`. -/

inductive PropertyType where
  | OneOf (types : List PropertyType)
  | Constant (value : String)
  | Ref (name : String)
  | ArrayOf (inner : PropertyType)
  | Dict

/-- The `Property` from `src/schema/types.rs` (identical in `src/main.rs`). -/
structure Property where
  type_name : PropertyType
  required : Bool
  list : Bool
  docs : String

/-- The `HashMap<String, Property>` insertion with overwrite on key collision,
as `HashMap::insert` / `FromIterator for HashMap` behave. -/
def hashMapInsert (m : List (String × Property)) (k : String) (v : Property) :
    List (String × Property) :=
  if m.any (fun kv => kv.1 == k) then
    m.map (fun kv => if kv.1 == k then (k, v) else kv)
  else m ++ [(k, v)]

/-- The `HashMap<String, Property>` built from a key/value sequence
(`collect::<HashMap<_, _>>()`): the map is modelled as an association list
with unique keys; a later entry for an existing key overwrites the earlier
value.  Key order carries no meaning, matching `HashMap`. -/
def hashMapOfList (l : List (String × Property)) : List (String × Property) :=
  l.foldl (fun m kv => hashMapInsert m kv.1 kv.2) []

/-! ### The type-expression grammar (`lit_type` in `src/convert.rs`)

The rust-peg grammar, fueled.  In rust-peg, `a() ++ sep()` parses one or more
`a` separated by `sep`, backtracking over a trailing separator; `union_type`
therefore also succeeds on a single `non_union_type`, producing a one-element
`OneOf`, and `lit_type` tries `union_type` first. -/

/-- The `Key := [A-Za-z0-9._]+` character class of `key_or_value_string`. -/
def isKeyOrValueChar (c : Char) : Bool :=
  c.isAlpha || c.isDigit || c = '.' || c = '_'

/-- Rule `key_or_value_string() := $([a-zA-Z0-9._]+)`. -/
def pKeyOrValueString (cs : List Char) : Option (String × List Char) :=
  let tk := cs.takeWhile isKeyOrValueChar
  if tk.isEmpty then none else some (String.mk tk, cs.drop tk.length)

/-- Rule `_ := [' ' | '\n']*` of the type grammar. -/
def typeWs (cs : List Char) : List Char :=
  cs.dropWhile (fun c => c = ' ' || c = '\n')

/-- Rule `dictionary_type := "{" _ Key _ ":" _ Key "}"`; the key and value
names are validated and discarded. -/
def pDictionaryType : List Char → Option (PropertyType × List Char)
  | '{' :: r1 =>
    match pKeyOrValueString (typeWs r1) with
    | some (_, r2) =>
      match typeWs r2 with
      | ':' :: r3 =>
        match pKeyOrValueString (typeWs r3) with
        | some (_, r4) =>
          match r4 with
          | '}' :: r5 => some (.Dict, r5)
          | _ => none
        | none => none
      | _ => none
    | none => none
  | _ => none

/-- Rule `constant_type := "\x60" Key "\x60"`. -/
def pConstantType : List Char → Option (PropertyType × List Char)
  | '`' :: r1 =>
    match pKeyOrValueString r1 with
    | some (v, '`' :: r2) => some (.Constant v, r2)
    | _ => none
  | _ => none

/-- Rule `ref_type := Key`, normalizing an identifier that contains a dot to
the reference named "string". -/
def pRefType (cs : List Char) : Option (PropertyType × List Char) :=
  match pKeyOrValueString cs with
  | some (nm, r) =>
    some (.Ref (if nm.data.contains '.' then "string" else nm), r)
  | none => none

mutual

/-- Rule `lit_type := union_type / non_union_type`. -/
def pLitType : Nat → List Char → Option (PropertyType × List Char)
  | 0, _ => none
  | f + 1, cs =>
    match pUnionType f cs with
    | some r => some r
    | none => pNonUnionType f cs

/-- Rule `union_type := non_union_type ++ (_ "|" _)`, wrapping the collected
members (one or more) in `OneOf`. -/
def pUnionType : Nat → List Char → Option (PropertyType × List Char)
  | 0, _ => none
  | f + 1, cs =>
    match pNonUnionType f cs with
    | some (t, rest) =>
      let (ts, r) := pUnionTail f rest
      some (.OneOf (t :: ts), r)
    | none => none

/-- The separated-repetition tail of `union_type`: each step matches
`_ "|" _` and then a further `non_union_type`; a separator whose following
member fails is backtracked, ending the repetition. -/
def pUnionTail : Nat → List Char → (List PropertyType × List Char)
  | 0, cs => ([], cs)
  | f + 1, cs =>
    match typeWs cs with
    | '|' :: r1 =>
      match pNonUnionType f (typeWs r1) with
      | some (t, r2) =>
        let (ts, r3) := pUnionTail f r2
        (t :: ts, r3)
      | none => ([], cs)
    | _ => ([], cs)

/-- Rule `non_union_type := array_type / dictionary_type / constant_type / ref_type`. -/
def pNonUnionType : Nat → List Char → Option (PropertyType × List Char)
  | 0, _ => none
  | f + 1, cs =>
    match pArrayType f cs with
    | some r => some r
    | none =>
      match pDictionaryType cs with
      | some r => some r
      | none =>
        match pConstantType cs with
        | some r => some r
        | none => pRefType cs

/-- Rule `array_type := "[" lit_type "]"`. -/
def pArrayType : Nat → List Char → Option (PropertyType × List Char)
  | 0, _ => none
  | f + 1, cs =>
    match cs with
    | '[' :: r1 =>
      match pLitType f r1 with
      | some (t, ']' :: r2) => some (.ArrayOf t, r2)
      | _ => none
    | _ => none

end

namespace ConvertRs

/-- The `parse_type` from `src/convert.rs`: run the public `lit_type` rule on the
whole input; rust-peg's wrapper demands full consumption.  The Rust function
`panic!`s (aborting the run) on failure, modelled as `none`. -/
def parse_type (s : String) : Option PropertyType :=
  match pLitType (4 * s.data.length + 8) s.data with
  | some (t, []) => some t
  | _ => none

end ConvertRs

example : ConvertRs.parse_type "a" = some (.OneOf [.Ref "a"]) := rfl
example : ConvertRs.parse_type "a|b" = some (.OneOf [.Ref "a", .Ref "b"]) := rfl
example : ConvertRs.parse_type "c.d" = some (.OneOf [.Ref "string"]) := rfl
example : ConvertRs.parse_type "`x`" = some (.OneOf [.Constant "x"]) := rfl
example : ConvertRs.parse_type "\x7ba:b\x7d" = some (.OneOf [.Dict]) := rfl
example : ConvertRs.parse_type "" = none := rfl
example : ConvertRs.parse_type "a |\n b" = some (.OneOf [.Ref "a", .Ref "b"]) := rfl
example : ConvertRs.parse_type "a|" = none := rfl
example :
    ConvertRs.parse_type "[a|`b`|c.d]" =
      some (.OneOf [.ArrayOf (.OneOf [.Ref "a", .Constant "b", .Ref "string"])]) := rfl

/-! ### The text renderer of `src/convert.rs` -/

namespace ConvertRs

/-- The `clean_text` from `src/convert.rs`: wraps every trimmed line in single
spaces; the subsequent empty-line check can never fire (kept faithfully). -/
def clean_text (text : String) : String :=
  String.join (((rustLines text).map (fun t => " " ++ rustTrim t ++ " ")).map
    (fun t => if t = "" then "\n\n" else t))

/-- The `raw_text`: concatenate only the `Text` nodes' content. -/
def raw_text : List LitNode → String
  | [] => ""
  | .Text t :: ns => t ++ raw_text ns
  | _ :: ns => raw_text ns

/-- The `trim_codeblock` from `src/convert.rs` (identical in `src/main.rs`):
strip the minimum leading-space indentation of the nonblank lines.  Rust
`str::len` (bytes) and `chars().position` are both modelled over characters,
which agree on ASCII. -/
def trim_codeblock (text : String) : String :=
  let trim_start_count :=
    (((rustLines text).filter (fun l => l.data.length > 0)).filterMap
      (fun s => s.data.findIdx? (fun c => c ≠ ' '))).min?.getD 0
  rustTrim (joinWith "\n" ((rustSplit text '\n').map (fun l =>
    if l.data.length > trim_start_count then String.mk (l.data.drop trim_start_count)
    else rustTrim l)))

/-- The `.replace("\\{", "{").replace("\\}", "}")` suffix that
`text_to_markdown` applies to the concatenated rendering. -/
def ttmPost (s : String) : String :=
  rustReplace (rustReplace s "\\\x7b" "\x7b") "\\\x7d" "\x7d"

mutual

/-- The `nodes.iter().map(...).collect::<String>()` concatenation of
`text_to_markdown`; the full renderer is `ttmPost ∘ ttmConcat`, and every
recursive call of the source — always the full renderer — appears below as
`ttmPost` applied to a `ttmConcat` of a structurally smaller document. -/
def ttmConcat : List LitNode → Option String
  | [] => some ""
  | n :: ns => do
    let a ← ttmNode n
    let b ← ttmConcat ns
    pure (a ++ b)

/-- One node of `text_to_markdown`'s match, branches in source order.
Out-of-range argument access (a Rust panic) is `none`. -/
def ttmNode : LitNode → Option String
  | .Text t => some (clean_text t)
  | .Fn nm args =>
    if nm = "example-toggle" then
      match args with
      | a0 :: a1 :: _ => do
        let s0 ← ttmConcat a0
        let s1 ← ttmConcat a1
        pure ("\n@example " ++ ttmPost s0 ++ "\n" ++ ttmPost s1)
      | _ => none
    else if nm = "codeblock" then
      match args with
      | a0 :: a1 :: _ =>
        some ("```" ++ rustTrim (raw_text a0) ++ "\n" ++
          trim_codeblock (raw_text a1) ++ "\n```")
      | _ => none
    else if nm = "code" then
      match args with
      | a0 :: _ => some ("`" ++ raw_text a0 ++ "`")
      | _ => none
    else if nm = "bold" then
      match args with
      | a0 :: _ => do
        let s0 ← ttmConcat a0
        pure ("**" ++ ttmPost s0 ++ "**")
      | _ => none
    else if nm = "warn" then
      match args with
      | a0 :: _ => do
        let s0 ← ttmConcat a0
        pure (ttmPost s0)
      | _ => none
    else ttmArgs args
  | .Comment _ => some ""

/-- The transparent recursion of the `_any_` branch:
`args.iter().map(text_to_markdown).collect()`. -/
def ttmArgs : List (List LitNode) → Option String
  | [] => some ""
  | d :: ds => do
    let a ← ttmConcat d
    let b ← ttmArgs ds
    pure (ttmPost a ++ b)

end

/-- The `text_to_markdown` from `src/convert.rs`: render every node, concatenate,
then unescape `\{` and `\}`. -/
def text_to_markdown (nodes : List LitNode) : Option String := do
  let s ← ttmConcat nodes
  pure (ttmPost s)

end ConvertRs

example : ConvertRs.text_to_markdown [.Text "  hi  "] = some " hi " := rfl
example : ConvertRs.text_to_markdown [.Fn "bold" [[.Text "x"]]] = some "** x **" := rfl

/-! ### The renderer of `src/main.rs` -/

namespace MainRs

/-- The `clean_text` from `src/main.rs`: trim every line, join with newlines. -/
def clean_text (text : String) : String :=
  joinWith "\n" ((rustLines text).map rustTrim)

/-- The `raw_text` from `src/main.rs` (same as the `convert.rs` copy). -/
def raw_text : List LitNode → String
  | [] => ""
  | .Text t :: ns => t ++ raw_text ns
  | _ :: ns => raw_text ns

/-- The `.collect::<String>().trim().to_string().replace(...)` suffix of the
`main.rs` renderer: trim first, then unescape `\{` and `\}`. -/
def ttmPost (s : String) : String :=
  rustReplace (rustReplace (rustTrim s) "\\\x7b" "\x7b") "\\\x7d" "\x7d"

mutual

/-- The `nodes.iter().map(...).collect::<String>()` concatenation of the
`main.rs` `text_to_markdown`; the full renderer is `ttmPost ∘ ttmConcat`,
and the source's recursive calls — always the full renderer — appear below
as `ttmPost` applied to a `ttmConcat` of a structurally smaller document. -/
def ttmConcat : List LitNode → Option String
  | [] => some ""
  | n :: ns => do
    let a ← ttmNode n
    let b ← ttmConcat ns
    pure (a ++ b)

/-- One node of the `main.rs` renderer's match, branches in source order;
the final wildcard renders `""` (comments and unknown calls alike).  Unlike
the `convert.rs` renderer there is no leading `example-toggle` newline and
no transparent recursion into unknown calls. -/
def ttmNode : LitNode → Option String
  | .Text t => some (clean_text t)
  | .Fn nm args =>
    if nm = "example-toggle" then
      match args with
      | a0 :: a1 :: _ => do
        let s0 ← ttmConcat a0
        let s1 ← ttmConcat a1
        pure ("@example " ++ ttmPost s0 ++ "\n" ++ ttmPost s1)
      | _ => none
    else if nm = "codeblock" then
      match args with
      | a0 :: a1 :: _ =>
        some ("```" ++ rustTrim (raw_text a0) ++ "\n" ++
          ConvertRs.trim_codeblock (raw_text a1) ++ "\n```")
      | _ => none
    else if nm = "code" then
      match args with
      | a0 :: _ => some ("`" ++ raw_text a0 ++ "`")
      | _ => none
    else if nm = "bold" then
      match args with
      | a0 :: _ => do
        let s0 ← ttmConcat a0
        pure ("**" ++ ttmPost s0 ++ "**")
      | _ => none
    else if nm = "warn" then
      match args with
      | a0 :: _ => do
        let s0 ← ttmConcat a0
        pure (ttmPost s0)
      | _ => none
    else some ""
  | .Comment _ => some ""

end

/-- The `text_to_markdown` from `src/main.rs`: concatenate the rendered nodes,
trim the result, then unescape `\{` and `\}`. -/
def text_to_markdown (nodes : List LitNode) : Option String := do
  let s ← ttmConcat nodes
  pure (ttmPost s)

end MainRs

example : MainRs.text_to_markdown [.Text "  hi  "] = some "hi" := rfl
example : MainRs.text_to_markdown [.Text "The widget name."] = some "The widget name." := rfl

/-! ### `parse_type` and the extractor of `src/main.rs` -/

namespace MainRs

/-- The `Schema` as defined in `src/main.rs` (no group fields). -/
structure Schema where
  schema_name : String
  properties : List (String × Property)

/-- Recursion worker for the string-splitting `parse_type` of `src/main.rs`.
Each recursive call strictly shrinks the string, so fuel `length + 1` never
runs out; the fuel-exhaustion arm is unreachable. -/
def parseTypeAux : Nat → String → PropertyType
  | 0, s => .Ref s
  | f + 1, s =>
    if rustStartsWith s "[" && rustEndsWith s "]" then
      .ArrayOf (parseTypeAux f (trimEndMatches (trimStartMatches s "[") "]"))
    else
      let parts := rustSplit s '|'
      if parts.length > 1 then
        .OneOf (parts.map (fun t => parseTypeAux f (rustTrim t)))
      else if rustStartsWith s "`" && rustEndsWith s "`" then
        .Constant (trimEndMatches (trimStartMatches s "`") "`")
      else .Ref s

/-- The `parse_type` from `src/main.rs`: strips all outer brackets when the
string both starts with `[` and ends with `]`, splits on `|` into a `OneOf`
when more than one part exists, recognizes backtick constants, and falls back
to `Ref` on the unchanged string.  It is total and never normalizes dotted
identifiers. -/
def parse_type (s : String) : PropertyType := parseTypeAux (s.data.length + 1) s

/-- The schema-name normalization applied in `transform_to_jsonschemas`
(`src/main.rs` lines 309–315). -/
def schemaNameOf (s : String) : String :=
  trimStartMatches (rustReplace (rustReplace (rustReplace (rustReplace
    s "`" "_") "-" "_") " " "_") "__" "_") "_"

mutual

/-- The `transform_to_jsonschemas` from `src/main.rs`: flat-map the per-node
extraction over the document.  A short argument list (a Rust index panic) is
`none`. -/
def transform_to_jsonschemas : List LitNode → Option (List Schema)
  | [] => some []
  | n :: rest => do
    let hd ← transformNode n
    let tl ← transform_to_jsonschemas rest
    pure (hd ++ tl)

/-- One node of the `main.rs` extractor: `schema`/`schema-group` produce the
schemas discovered in the property list (attribute documentation subtrees),
then the schema itself, then the recursion over all arguments; any other call
recurses transparently into its arguments; text and comments produce
nothing. -/
def transformNode : LitNode → Option (List Schema)
  | .Text _ => some []
  | .Comment _ => some []
  | .Fn nm args =>
    if nm = "schema" ∨ nm = "schema-group" then do
      let innerArgs ← transformArgs args
      if nm = "schema" then
        match args with
        | a0 :: a1 :: _ => do
          let (props, innerP) ← transformProps a1
          let nm0 ← text_to_markdown a0
          let sch : Schema :=
            { schema_name := schemaNameOf nm0, properties := hashMapOfList props }
          pure (innerP ++ [sch] ++ innerArgs)
        | _ => none
      else
        match args with
        | a0 :: _ :: a2 :: _ => do
          let (props, innerP) ← transformProps a2
          let nm0 ← text_to_markdown a0
          let sch : Schema :=
            { schema_name := schemaNameOf nm0, properties := hashMapOfList props }
          pure (innerP ++ [sch] ++ innerArgs)
        | _ => none
    else transformArgs args

/-- The property-list closure of `src/main.rs` (lines 268–306): attribute
calls yield a key/value pair, the raw (unrendered) type string feeds
`parse_type` after `-`→`_` normalization, and the documentation subtree's
schemas are accumulated alongside; any other call contributes only the
schemas of its arguments; text and comments are skipped. -/
def transformProps : List LitNode → Option (List (String × Property) × List Schema)
  | [] => some ([], [])
  | .Text _ :: rest => transformProps rest
  | .Comment _ :: rest => transformProps rest
  | .Fn p pargs :: rest =>
    if p = "required-attribute" ∨ p = "optional-attribute" then
      match pargs with
      | b0 :: b1 :: b2 :: _ => do
        let type_name := rustTrim (raw_text b1)
        let inner ← transform_to_jsonschemas b2
        let prop_name ← text_to_markdown b0
        let docs ← text_to_markdown b2
        let (ps, ss) ← transformProps rest
        pure ((prop_name,
          { type_name := parse_type (rustReplace type_name "-" "_"),
            required := p == "required-attribute",
            list := rustStartsWith type_name "[",
            docs := docs }) :: ps, inner ++ ss)
      | _ => none
    else do
      let inner ← transformArgs pargs
      let (ps, ss) ← transformProps rest
      pure (ps, inner ++ ss)

/-- The `args.into_iter().flat_map(transform_to_jsonschemas)`. -/
def transformArgs : List (List LitNode) → Option (List Schema)
  | [] => some []
  | d :: ds => do
    let a ← transform_to_jsonschemas d
    let b ← transformArgs ds
    pure (a ++ b)

end

end MainRs

example : MainRs.parse_type "string" = .Ref "string" := rfl
example : MainRs.parse_type "a|b" = .OneOf [.Ref "a", .Ref "b"] := rfl
example : MainRs.parse_type "c.d" = .Ref "c.d" := rfl
example :
    MainRs.parse_type "[a|`b`|c.d]" =
      .ArrayOf (.OneOf [.Ref "a", .Constant "b", .Ref "c.d"]) := rfl
example : MainRs.parse_type "[[a]]" = .ArrayOf (.Ref "a") := rfl

/-! ### The group/orphan-aware extractor of `src/convert.rs`

The `collect_schemas`/`collect_attributes` pair in `src/convert.rs` is a
historical snapshot that is syntactically incomplete: the `props` binding of
the `schema`/`schema-group` arm is malformed (lines 30–37), the
`collect_orphaned` flag and the two recursion entry points
(`transform_to_jsonschemas_orphaned` / `_non_orphaned`) are referenced but
not defined, and `group_members` is pushed to from a different function's
scope (line 109).  The well-formed fragments (the orphan arm, `convert_prop`,
the generic-call recursion) are embedded verbatim below; the missing wiring
is modelled from the spec, §4.3. -/

namespace ConvertRs

/-- The `Schema` as constructed by `src/convert.rs` (field `part_of_group`;
`src/schema/types.rs` declares the same field as `is_group_member`). -/
structure Schema where
  schema_name : String
  part_of_group : Bool
  group_members : List String
  properties : List (String × Property)

/-- The schema-name normalization of the `schema`/`schema-group` arm
(`src/convert.rs` lines 19–26): trim, then replace backtick/hyphen/space with
underscore, collapse double underscores, strip leading underscores. -/
def schemaNameOf (s : String) : String :=
  trimStartMatches (rustReplace (rustReplace (rustReplace (rustReplace
    (rustTrim s) "`" "_") "-" "_") " " "_") "__" "_") "_"

mutual

/-- Modelled from the spec: the extractor's free traversal
(`collect_schemas` / the undefined `transform_to_jsonschemas(n,
collect_orphaned)` of `src/convert.rs`), with the two flags the source
references but never declares: `collectOrphaned` enables the orphan arm, and
`inGroup` records that the traversal is inside a `schema-group`'s subtree
(spec §4.3: a schema discovered anywhere under a group call is marked as a
group member). -/
def collect_schemas (collectOrphaned inGroup : Bool) :
    List LitNode → Option (List Schema)
  | [] => some []
  | n :: rest => do
    let hd ← collectNode collectOrphaned inGroup n
    let tl ← collect_schemas collectOrphaned inGroup rest
    pure (hd ++ tl)

/-- Modelled from the spec: the per-node arm of `collect_schemas`.  The
orphan arm (source lines 57–75) and the generic-call recursion (lines 76–79)
are well-formed in the source and embedded as written; the
`schema`/`schema-group` arm's `props` binding and `group_members` assembly
are missing from the source and follow spec §4.3: properties come from
`collect_attributes` on argument 1 (`schema`) or argument 2 (`schema-group`),
the whole argument subtree is traversed with orphan collection off (the
source's `transform_to_jsonschemas_non_orphaned`) and, under a group, with
`inGroup` set; `group_members` collects the names of the `part_of_group`
schemas discovered in the group's subtree, and the introduced schema itself
is `part_of_group` iff it was discovered inside a group's subtree. -/
def collectNode (collectOrphaned inGroup : Bool) : LitNode → Option (List Schema)
  | .Text _ => some []
  | .Comment _ => some []
  | .Fn nm args =>
    if nm = "schema" ∨ nm = "schema-group" then
      if nm = "schema" then do
        let innerB ← collectArgs false inGroup args
        match args with
        | a0 :: a1 :: _ => do
          let nm0 ← text_to_markdown a0
          let (props, innerA) ← collect_attributes inGroup a1
          let found := innerA ++ innerB
          let sch : Schema :=
            { schema_name := schemaNameOf nm0, part_of_group := inGroup,
              group_members := [], properties := hashMapOfList props }
          pure (found ++ [sch])
        | _ => none
      else do
        let innerB ← collectArgs false true args
        match args with
        | a0 :: _ :: a2 :: _ => do
          let nm0 ← text_to_markdown a0
          let (props, innerA) ← collect_attributes true a2
          let found := innerA ++ innerB
          let sch : Schema :=
            { schema_name := schemaNameOf nm0, part_of_group := inGroup,
              group_members :=
                (found.filter (fun s => s.part_of_group)).map
                  (fun s => s.schema_name),
              properties := hashMapOfList props }
          pure (found ++ [sch])
        | _ => none
    else
      if (nm = "required-attribute" ∨ nm = "optional-attribute") ∧
          collectOrphaned = true then do
        let (inner, kv) ← convert_prop inGroup nm args
        let orphaned_attr : Schema :=
          { schema_name := "$orphaned:" ++ kv.1, part_of_group := false,
            group_members := [], properties := hashMapOfList [kv] }
        pure (orphaned_attr :: inner)
      else collectArgs collectOrphaned inGroup args

/-- Modelled from the spec: the bounded traversal of a property list
(`collect_attributes`, source lines 87–124): attribute calls become
key/value pairs via `convert_prop`; any other call except a literal `schema`
is traversed with orphan collection on (the source's
`transform_to_jsonschemas_orphaned`); a `schema` call, text and comments
fall to the wildcard arm and contribute nothing.  The source's push of
discovered member names into the enclosing group (its malformed
`group_members.extend`) is realized at the enclosing group node by
filtering the discovered schemas, per spec §4.3. -/
def collect_attributes (inGroup : Bool) :
    List LitNode → Option (List (String × Property) × List Schema)
  | [] => some ([], [])
  | n :: rest => do
    let (ps, ss) ← collectAttrNode inGroup n
    let (ps2, ss2) ← collect_attributes inGroup rest
    pure (ps ++ ps2, ss ++ ss2)

/-- One node of `collect_attributes` (see there). -/
def collectAttrNode (inGroup : Bool) :
    LitNode → Option (List (String × Property) × List Schema)
  | .Text _ => some ([], [])
  | .Comment _ => some ([], [])
  | .Fn nm args =>
    if nm = "required-attribute" ∨ nm = "optional-attribute" then do
      let (inner, kv) ← convert_prop inGroup nm args
      pure ([kv], inner)
    else
      if nm ≠ "schema" then do
        let inner ← collectArgs true inGroup args
        pure ([], inner)
      else some ([], [])

/-- The `convert_prop` from `src/convert.rs` (lines 126–155, well-formed in the
source): renders the name, the type string, and the documentation with the
`convert.rs` renderer, recurses into the documentation subtree with orphan
collection on, and feeds the `-`→`_`-normalized type string to `parse_type`,
whose `panic!` on failure propagates here as `none`. -/
def convert_prop (inGroup : Bool) (attribute_type : String) :
    List (List LitNode) → Option (List Schema × (String × Property))
  | a0 :: a1 :: a2 :: _ => do
    let n0 ← text_to_markdown a0
    let t0 ← text_to_markdown a1
    let type_name := rustTrim t0
    let inner ← collect_schemas true inGroup a2
    let d0 ← text_to_markdown a2
    let ty ← parse_type (rustReplace type_name "-" "_")
    pure (inner, (rustTrim n0,
      { type_name := ty, required := attribute_type == "required-attribute",
        list := rustStartsWith type_name "[", docs := rustTrim d0 }))
  | _ => none

/-- The `args.into_iter().flat_map(...)` over the argument list. -/
def collectArgs (collectOrphaned inGroup : Bool) :
    List (List LitNode) → Option (List Schema)
  | [] => some []
  | d :: ds => do
    let a ← collect_schemas collectOrphaned inGroup d
    let b ← collectArgs collectOrphaned inGroup ds
    pure (a ++ b)

end

/-- Modelled from the spec: `to_jsonschemas` (`src/convert.rs` line 4), the
extractor entry point — free traversal of the document with orphan
collection on (spec §4.3 orphan handling) and outside any group. -/
def to_jsonschemas (doc : List LitNode) : Option (List Schema) :=
  collect_schemas true false doc

end ConvertRs

/-! ### The `OneOf` structural invariant (claim C1) -/

/-- Whether a `PropertyType` is a `OneOf` node. -/
def isOneOfCtor : PropertyType → Bool
  | .OneOf _ => true
  | _ => false

mutual

/-- The invariant of every parsed type: each `OneOf` anywhere in the tree is
nonempty and none of its direct members is itself a `OneOf`. -/
def oneOfInv : PropertyType → Bool
  | .OneOf ts => !ts.isEmpty && oneOfMembersInv ts
  | .ArrayOf t => oneOfInv t
  | _ => true

/-- Member-list form of `oneOfInv`: every member is not a `OneOf` and
satisfies the invariant recursively. -/
def oneOfMembersInv : List PropertyType → Bool
  | [] => true
  | t :: ts => !isOneOfCtor t && oneOfInv t && oneOfMembersInv ts

end

/-- Unfolding equation of `pLitType` at positive fuel. -/
theorem pLitType_succ (f : Nat) (cs : List Char) :
    pLitType (f + 1) cs = match pUnionType f cs with
      | some r => some r
      | none => pNonUnionType f cs := rfl

/-- Unfolding equation of `pUnionType` at positive fuel. -/
theorem pUnionType_succ (f : Nat) (cs : List Char) :
    pUnionType (f + 1) cs = match pNonUnionType f cs with
      | some (t, rest) =>
        let (ts, r) := pUnionTail f rest
        some (.OneOf (t :: ts), r)
      | none => none := rfl

/-- Unfolding equation of `pUnionTail` at positive fuel. -/
theorem pUnionTail_succ (f : Nat) (cs : List Char) :
    pUnionTail (f + 1) cs = match typeWs cs with
      | '|' :: r1 =>
        match pNonUnionType f (typeWs r1) with
        | some (t, r2) =>
          let (ts, r3) := pUnionTail f r2
          (t :: ts, r3)
        | none => ([], cs)
      | _ => ([], cs) := rfl

/-- Unfolding equation of `pNonUnionType` at positive fuel. -/
theorem pNonUnionType_succ (f : Nat) (cs : List Char) :
    pNonUnionType (f + 1) cs = match pArrayType f cs with
      | some r => some r
      | none =>
        match pDictionaryType cs with
        | some r => some r
        | none =>
          match pConstantType cs with
          | some r => some r
          | none => pRefType cs := rfl

/-- Unfolding equation of `pArrayType` at positive fuel. -/
theorem pArrayType_succ (f : Nat) (cs : List Char) :
    pArrayType (f + 1) cs = match cs with
      | '[' :: r1 =>
        match pLitType f r1 with
        | some (t, ']' :: r2) => some (.ArrayOf t, r2)
        | _ => none
      | _ => none := rfl

/-- Result shape of `dictionary_type`: always `Dict`. -/
theorem pDictionaryType_shape (cs : List Char) (r : PropertyType) (rest : List Char)
    (h : pDictionaryType cs = some (r, rest)) : r = .Dict := by
  rw [pDictionaryType.eq_def] at h
  repeat split at h
  all_goals (cases h <;> rfl)

/-- Result shape of `constant_type`: always a `Constant`. -/
theorem pConstantType_shape (cs : List Char) (r : PropertyType) (rest : List Char)
    (h : pConstantType cs = some (r, rest)) : ∃ v, r = .Constant v := by
  rw [pConstantType.eq_def] at h
  repeat split at h
  all_goals (cases h <;> exact ⟨_, rfl⟩)

/-- Result shape of `ref_type`: always a `Ref`. -/
theorem pRefType_shape (cs : List Char) (r : PropertyType) (rest : List Char)
    (h : pRefType cs = some (r, rest)) : ∃ v, r = .Ref v := by
  rw [pRefType.eq_def] at h
  repeat split at h
  all_goals (cases h <;> exact ⟨_, rfl⟩)

/-- The `OneOf` invariant holds for every result of every rule of the type
grammar, and `non_union_type`/`array_type` never return a `OneOf`; by fuel
induction over the mutual parser family. -/
theorem typeGrammarInv : ∀ f : Nat,
    (∀ cs r rest, pLitType f cs = some (r, rest) → oneOfInv r = true) ∧
    (∀ cs r rest, pUnionType f cs = some (r, rest) → oneOfInv r = true) ∧
    (∀ cs ts rest, pUnionTail f cs = (ts, rest) → oneOfMembersInv ts = true) ∧
    (∀ cs r rest, pNonUnionType f cs = some (r, rest) →
      oneOfInv r = true ∧ isOneOfCtor r = false) ∧
    (∀ cs r rest, pArrayType f cs = some (r, rest) →
      oneOfInv r = true ∧ isOneOfCtor r = false) := by
  intro f
  induction f with
  | zero =>
    refine ⟨?_, ?_, ?_, ?_, ?_⟩
    · intro cs r rest h; exact absurd h (by simp [pLitType])
    · intro cs r rest h; exact absurd h (by simp [pUnionType])
    · intro cs ts rest h
      rw [show pUnionTail 0 cs = ([], cs) from rfl] at h
      cases h
      rfl
    · intro cs r rest h; exact absurd h (by simp [pNonUnionType])
    · intro cs r rest h; exact absurd h (by simp [pArrayType])
  | succ f ih =>
    obtain ⟨ihL, ihU, ihT, ihN, ihA⟩ := ih
    refine ⟨?_, ?_, ?_, ?_, ?_⟩
    · intro cs r rest h
      rw [pLitType_succ] at h
      split at h
      · rename_i v heq
        cases h
        exact ihU _ _ _ heq
      · exact (ihN _ _ _ h).1
    · intro cs r rest h
      rw [pUnionType_succ] at h
      split at h
      · rename_i t rest1 heq
        obtain ⟨ts2, r3, heqT⟩ : ∃ a b, pUnionTail f rest1 = (a, b) := ⟨_, _, rfl⟩
        rw [heqT] at h
        cases h
        have hN := ihN _ _ _ heq
        have hT := ihT _ _ _ heqT
        simp [oneOfInv, oneOfMembersInv, hN.1, hN.2, hT]
      · exact absurd h (by simp)
    · intro cs ts rest h
      rw [pUnionTail_succ] at h
      split at h
      · split at h
        · rename_i t r2 heq
          obtain ⟨ts2, r3, heqT⟩ : ∃ a b, pUnionTail f r2 = (a, b) := ⟨_, _, rfl⟩
          rw [heqT] at h
          cases h
          have hN := ihN _ _ _ heq
          have hT := ihT _ _ _ heqT
          simp [oneOfMembersInv, hN.1, hN.2, hT]
        · cases h; rfl
      · cases h; rfl
    · intro cs r rest h
      rw [pNonUnionType_succ] at h
      split at h
      · rename_i v heq
        cases h
        exact ihA _ _ _ heq
      · split at h
        · rename_i v heq
          cases h
          obtain rfl := pDictionaryType_shape _ _ _ heq
          exact ⟨rfl, rfl⟩
        · split at h
          · rename_i v heq
            cases h
            obtain ⟨w, rfl⟩ := pConstantType_shape _ _ _ heq
            exact ⟨rfl, rfl⟩
          · obtain ⟨w, rfl⟩ := pRefType_shape _ _ _ h
            exact ⟨rfl, rfl⟩
    · intro cs r rest h
      rw [pArrayType_succ] at h
      split at h
      · split at h
        · rename_i t r2 heq
          cases h
          refine ⟨?_, rfl⟩
          simpa [oneOfInv] using ihL _ _ _ heq
        · exact absurd h (by simp)
      · exact absurd h (by simp)

/-! ### Claim C1 -/

/-- C1 counterexample: the type string "a" is accepted and parses to a
`OneOf` with a single member, so not every `OneOf` has at least 2 members:
rust-peg's `++` accepts a single repetition, and `lit_type` tries
`union_type` first. -/
theorem c1_singleton_oneOf_counterexample :
    ConvertRs.parse_type "a" = some (.OneOf [.Ref "a"]) ∧
    ¬ 2 ≤ ([PropertyType.Ref "a"] : List PropertyType).length :=
  ⟨rfl, by simp⟩

/-- C1 (amended): for every type string the type expression parser accepts,
every `OneOf` value appearing anywhere in the resulting `TypeExpr` has at
least 1 member (a singleton `OneOf` is produced for every non-union string),
and no direct member of a `OneOf` is itself a `OneOf`. -/
theorem c1_oneOf_invariant_amended (s : String) (t : PropertyType)
    (h : ConvertRs.parse_type s = some t) : oneOfInv t = true := by
  unfold ConvertRs.parse_type at h
  split at h
  · rename_i t2 heq
    cases h
    exact (typeGrammarInv _).1 _ _ _ heq
  · exact absurd h (by simp)

/-- Witness for C1 (amended) at the accepted string "a|b". -/
theorem c1_oneOf_invariant_amended_witness :
    ConvertRs.parse_type "a|b" = some (.OneOf [.Ref "a", .Ref "b"]) ∧
    oneOfInv (.OneOf [.Ref "a", .Ref "b"]) = true :=
  ⟨rfl, c1_oneOf_invariant_amended "a|b" _ rfl⟩

/-! ### Claim C2 -/

/-- C2 counterexample: parsing `[a|\x60b\x60|c.d]` does not return
`ArrayOf(OneOf(...))` — the grammar's top-level `union_type` wraps the array
in a singleton `OneOf` first. -/
theorem c2_array_union_counterexample :
    ConvertRs.parse_type "[a|`b`|c.d]" ≠
      some (.ArrayOf (.OneOf [.Ref "a", .Constant "b", .Ref "string"])) := by
  intro h
  rw [show ConvertRs.parse_type "[a|`b`|c.d]" =
    some (.OneOf [.ArrayOf (.OneOf [.Ref "a", .Constant "b", .Ref "string"])])
    from rfl] at h
  simp at h

/-- C2 (amended): parsing the type string `[a|\x60b\x60|c.d]` returns exactly
`OneOf([ArrayOf(OneOf([Reference "a", Constant "b", Reference "string"]))])`
— the claimed value wrapped in the parser's mandatory top-level `OneOf`; in
particular the dotted reference `c.d` is normalized to the reference named
"string". -/
theorem c2_array_union_amended :
    ConvertRs.parse_type "[a|`b`|c.d]" =
      some (.OneOf [.ArrayOf (.OneOf [.Ref "a", .Constant "b", .Ref "string"])]) := rfl

/-! ### Claim C3 -/

/-- The markup source of the C3 scenario:
`\schema{widget}{\required-attribute{name}{string}{The widget name.}}`. -/
def c3Input : String :=
  "\\schema\x7bwidget\x7d\x7b\\required-attribute\x7bname\x7d\x7bstring\x7d\x7bThe widget name.\x7d\x7d"

/-- The node tree of the C3 scenario. -/
def c3Doc : List LitNode :=
  [.Fn "schema" [[.Text "widget"],
    [.Fn "required-attribute"
      [[.Text "name"], [.Text "string"], [.Text "The widget name."]]]]]

/-- C3: parsing and extracting
`\schema{widget}{\required-attribute{name}{string}{The widget name.}}` yields
exactly one Schema named "widget" whose property map has exactly the one
required property "name" of type `Reference "string"` with docs
"The widget name.". -/
theorem c3_widget_scenario :
    lit_parse c3Input = some c3Doc ∧
    MainRs.transform_to_jsonschemas c3Doc =
      some [{ schema_name := "widget",
              properties := [("name",
                { type_name := .Ref "string", required := true, list := false,
                  docs := "The widget name." })] }] :=
  ⟨rfl, rfl⟩

/-! ### Claim C4 -/

/-- The markup source of the C4 scenario:
`\schema-group{shape}{\schema{circle}{\required-attribute{radius}{number}{R.}}}{}`. -/
def c4Input : String :=
  "\\schema-group\x7bshape\x7d\x7b\\schema\x7bcircle\x7d\x7b\\required-attribute\x7bradius\x7d\x7bnumber\x7d\x7bR.\x7d\x7d\x7d\x7b\x7d"

/-- The node tree of the C4 scenario. -/
def c4Doc : List LitNode :=
  [.Fn "schema-group" [[.Text "shape"],
    [.Fn "schema" [[.Text "circle"],
      [.Fn "required-attribute"
        [[.Text "radius"], [.Text "number"], [.Text "R."]]]]], []]]

/-- C4: parsing and extracting
`\schema-group{shape}{\schema{circle}{\required-attribute{radius}{number}{R.}}}{}`
yields exactly two Schemas: "circle" with `part_of_group = true` and the one
property "radius", and "shape" with `group_members = ["circle"]`.  (Settled
against the spec-modelled extractor, since the group wiring of
`src/convert.rs` is syntactically incomplete.) -/
theorem c4_group_scenario :
    lit_parse c4Input = some c4Doc ∧
    ConvertRs.to_jsonschemas c4Doc =
      some [{ schema_name := "circle", part_of_group := true, group_members := [],
              properties := [("radius",
                { type_name := .OneOf [.Ref "number"], required := true,
                  list := false, docs := "R." })] },
            { schema_name := "shape", part_of_group := false,
              group_members := ["circle"], properties := [] }] :=
  ⟨rfl, rfl⟩

/-! ### Claim C7 -/

/-- C7 counterexample: parsing the two-character input `\{` yields a `Text`
node whose content is the raw two-character escape sequence, not the single
character `{` — `textContent` captures the matched source text unresolved. -/
theorem c7_escape_unresolved_counterexample :
    lit_parse "\\\x7b" = some [.Text "\\\x7b"] ∧
    lit_parse "\\\x7b" ≠ some [.Text "\x7b"] :=
  ⟨rfl, by
    intro h
    rw [show lit_parse "\\\x7b" = some [.Text "\\\x7b"] from rfl] at h
    simp at h⟩

/-! ### Claim C8 -/

/-- C8: a type string on which every alternative of the type grammar fails
produces no `TypeExpr` at all: `parse_type` yields `none`, the model of the
source's `panic!`, which aborts the whole run rather than recovering
per-attribute. -/
theorem c8_unparsable_type_aborts (s : String)
    (h : pLitType (4 * s.data.length + 8) s.data = none) :
    ConvertRs.parse_type s = none := by
  unfold ConvertRs.parse_type
  rw [h]

/-- Witness for C8 at the empty string, which matches no grammar
alternative. -/
theorem c8_unparsable_type_aborts_witness :
    pLitType (4 * "".data.length + 8) "".data = none ∧
    ConvertRs.parse_type "" = none :=
  ⟨rfl, c8_unparsable_type_aborts "" rfl⟩

/-! ### Claim C5 -/

/-- C5: an attribute call encountered during free traversal (with orphan
collection on, i.e. outside any schema's property list) is never silently
dropped: extraction emits a synthetic Schema named by the reserved orphan
prefix `$orphaned:` concatenated with the attribute's rendered name, whose
property map holds exactly that one property, followed by the schemas found
in the attribute's own documentation subtree.  (Settled against the
spec-modelled extractor; the orphan arm itself is well-formed in
`src/convert.rs`.) -/
theorem c5_orphan_attribute (attrName : String) (a0 a1 a2 : List LitNode)
    (inGroup : Bool) (inner : List ConvertRs.Schema)
    (n0 t0 d0 : String) (ty : PropertyType)
    (hattr : attrName = "required-attribute" ∨ attrName = "optional-attribute")
    (hn : ConvertRs.text_to_markdown a0 = some n0)
    (ht : ConvertRs.text_to_markdown a1 = some t0)
    (hd : ConvertRs.text_to_markdown a2 = some d0)
    (hi : ConvertRs.collect_schemas true inGroup a2 = some inner)
    (hty : ConvertRs.parse_type (rustReplace (rustTrim t0) "-" "_") = some ty) :
    ConvertRs.collect_schemas true inGroup [.Fn attrName [a0, a1, a2]] =
      some ({ schema_name := "$orphaned:" ++ rustTrim n0, part_of_group := false,
              group_members := [],
              properties := [(rustTrim n0,
                { type_name := ty,
                  required := attrName == "required-attribute",
                  list := rustStartsWith (rustTrim t0) "[",
                  docs := rustTrim d0 })] } :: inner) := by
  have hcp : ∀ nm : String,
      ConvertRs.convert_prop inGroup nm [a0, a1, a2] =
        some (inner, (rustTrim n0,
          { type_name := ty, required := nm == "required-attribute",
            list := rustStartsWith (rustTrim t0) "[", docs := rustTrim d0 })) := by
    intro nm
    simp [ConvertRs.convert_prop, hn, ht, hd, hi, hty]
  rcases hattr with h | h <;> subst h
  · have e1 : ConvertRs.collect_schemas true inGroup
        [.Fn "required-attribute" [a0, a1, a2]] =
        Option.bind (Option.bind
          (ConvertRs.convert_prop inGroup "required-attribute" [a0, a1, a2])
          (fun x => some (ConvertRs.Schema.mk ("$orphaned:" ++ x.2.1) false []
            (hashMapOfList [x.2]) :: x.1)))
          (fun hd => some (hd ++ [])) := rfl
    rw [e1, hcp]
    simp [hashMapOfList, hashMapInsert]
  · have e1 : ConvertRs.collect_schemas true inGroup
        [.Fn "optional-attribute" [a0, a1, a2]] =
        Option.bind (Option.bind
          (ConvertRs.convert_prop inGroup "optional-attribute" [a0, a1, a2])
          (fun x => some (ConvertRs.Schema.mk ("$orphaned:" ++ x.2.1) false []
            (hashMapOfList [x.2]) :: x.1)))
          (fun hd => some (hd ++ [])) := rfl
    rw [e1, hcp]
    simp [hashMapOfList, hashMapInsert]

/-- Witness for C5 at a concrete orphaned attribute. -/
theorem c5_orphan_attribute_witness :
    ConvertRs.text_to_markdown [.Text "size"] = some " size " ∧
    ConvertRs.text_to_markdown [.Text "number"] = some " number " ∧
    ConvertRs.text_to_markdown [.Text "S."] = some " S. " ∧
    ConvertRs.collect_schemas true false [.Text "S."] = some [] ∧
    ConvertRs.parse_type (rustReplace (rustTrim " number ") "-" "_") =
      some (.OneOf [.Ref "number"]) ∧
    ConvertRs.collect_schemas true false
      [.Fn "required-attribute" [[.Text "size"], [.Text "number"], [.Text "S."]]] =
      some [{ schema_name := "$orphaned:" ++ rustTrim " size ", part_of_group := false,
              group_members := [],
              properties := [(rustTrim " size ",
                { type_name := .OneOf [.Ref "number"],
                  required := ("required-attribute" : String) == "required-attribute",
                  list := rustStartsWith (rustTrim " number ") "[",
                  docs := rustTrim " S. " })] }] :=
  ⟨rfl, rfl, rfl, rfl, rfl,
    c5_orphan_attribute "required-attribute" [.Text "size"] [.Text "number"]
      [.Text "S."] false [] " size " " number " " S. " (.OneOf [.Ref "number"])
      (Or.inl rfl) rfl rfl rfl rfl rfl⟩

/-! ### Claim C6 -/

/-- Unfolding equation of `pDoc` at positive fuel. -/
theorem pDoc_succ (f : Nat) (cs : List Char) :
    pDoc (f + 1) cs = match pLitNode f cs with
      | some (n, rest) =>
        let (ns, r) := pDoc f rest
        (n :: ns, r)
      | none => ([], cs) := rfl

/-- Unfolding equation of `pLitNode` at positive fuel. -/
theorem pLitNode_succ (f : Nat) (cs : List Char) :
    pLitNode (f + 1) cs = match pFunctionCall f cs with
      | some r => some r
      | none =>
        match pComment cs with
        | some r => some r
        | none => pTextContent cs := rfl

/-- Unfolding equation of `pFunctionCall` at positive fuel. -/
theorem pFunctionCall_succ (f : Nat) (cs : List Char) :
    pFunctionCall (f + 1) cs = match cs with
      | '\\' :: rest =>
        match pFunctionName rest with
        | some (nm, r1) =>
          let (args, r2) := pArgs f r1
          some (.Fn nm args, r2)
        | none => none
      | _ => none := rfl

/-- Unfolding equation of `pTextLoop` at positive fuel. -/
theorem pTextLoop_succ (f : Nat) (cs : List Char) :
    pTextLoop (f + 1) cs = match pTextIter cs with
      | some (chunk, rest) =>
        let (more, r) := pTextLoop f rest
        (chunk ++ more, r)
      | none => ([], cs) := rfl

/-- C6 counterexample: the input `\a` (backslash followed by a single letter,
which is not a valid call identifier since `functionName` needs two or more
characters) is a parse error, not a `Text` node. -/
theorem c6_invalid_backslash_counterexample : lit_parse "\\a" = none := rfl

/-- C6 (amended): a backslash not followed by a valid call identifier makes
the markup parser fail at that position unless the following character is one
of `\`, `{`, `}` (the two-character escapes, which are consumed as text):
for every input starting with a backslash whose remainder neither begins a
valid identifier nor is one of the three escape characters, parsing fails. -/
theorem c6_invalid_backslash_amended (rest : List Char)
    (hFn : pFunctionName rest = none)
    (hEsc : ∀ c cs, rest = c :: cs → c ≠ '\\' ∧ c ≠ '\x7b' ∧ c ≠ '\x7d') :
    lit_parse (String.mk ('\\' :: rest)) = none := by
  have hTI : pTextIter ('\\' :: rest) = none := by
    rcases rest with _ | ⟨c, cs⟩
    · rfl
    · obtain ⟨h1, h2, h3⟩ := hEsc c cs rfl
      unfold pTextIter
      split <;> simp_all [List.takeWhile, isPlainTextChar]
  have hLoop : ∀ g, pTextLoop g ('\\' :: rest) = ([], '\\' :: rest) := by
    intro g
    cases g with
    | zero => rfl
    | succ g => rw [pTextLoop_succ, hTI]
  have hTC : pTextContent ('\\' :: rest) = none := by
    unfold pTextContent
    rw [hLoop]
  have hFC : ∀ g, pFunctionCall g ('\\' :: rest) = none := by
    intro g
    cases g with
    | zero => rfl
    | succ g =>
      rw [pFunctionCall_succ]
      simp [hFn]
  have hCom : pComment ('\\' :: rest) = none := rfl
  have hLN : ∀ g, pLitNode g ('\\' :: rest) = none := by
    intro g
    cases g with
    | zero => rfl
    | succ g => rw [pLitNode_succ, hFC g, hCom, hTC]
  have hD : ∀ g, pDoc g ('\\' :: rest) = ([], '\\' :: rest) := by
    intro g
    cases g with
    | zero => rfl
    | succ g => rw [pDoc_succ, hLN g]
  have hw : lit_parse (String.mk ('\\' :: rest)) =
      match pDoc (8 * ('\\' :: rest).length + 16) ('\\' :: rest) with
      | (doc, []) => some doc
      | _ => none := rfl
  rw [hw, hD]

/-- Witness for C6 (amended) at the remainder "a". -/
theorem c6_invalid_backslash_amended_witness :
    pFunctionName ['a'] = none ∧ lit_parse (String.mk ['\\', 'a']) = none :=
  ⟨rfl, c6_invalid_backslash_amended ['a'] rfl
    (by intro c cs h; cases h; exact ⟨by decide, by decide, by decide⟩)⟩

/-! ### Claim C7, continued: the universal capture property

The amended C7 states that every `Text` node keeps its source span as
written.  The following development proves it for all inputs: `textsOf...`
collects every `Text` content of a parse result, and `markupSpan` shows by
fuel induction that each one is a verbatim contiguous span of the input. -/

mutual

/-- All `Text` contents occurring anywhere in a node, in order. -/
def textsOfNode : LitNode → List String
  | .Text s => [s]
  | .Comment _ => []
  | .Fn _ args => textsOfArgs args

/-- All `Text` contents occurring anywhere in an argument list. -/
def textsOfArgs : List (List LitNode) → List String
  | [] => []
  | d :: ds => textsOfDoc d ++ textsOfArgs ds

/-- All `Text` contents occurring anywhere in a document. -/
def textsOfDoc : List LitNode → List String
  | [] => []
  | n :: ns => textsOfNode n ++ textsOfDoc ns

end

/-- Splitting a list at the end of its `takeWhile` prefix reassembles it. -/
theorem takeWhile_append_drop (p : Char → Bool) (cs : List Char) :
    cs.takeWhile p ++ cs.drop (cs.takeWhile p).length = cs := by
  obtain ⟨t, ht⟩ := List.takeWhile_prefix (l := cs) p
  calc cs.takeWhile p ++ cs.drop (cs.takeWhile p).length
      = cs.takeWhile p ++ (cs.takeWhile p ++ t).drop (cs.takeWhile p).length := by
        rw [ht]
    _ = cs.takeWhile p ++ t := by rw [List.drop_left]
    _ = cs := ht

/-- A list is a suffix of itself preceded by two elements. -/
theorem suffix_cons2 {α : Type} {r : List α} (a b : α) : r <:+ a :: b :: r :=
  (List.suffix_cons b r).trans (List.suffix_cons a (b :: r))

/-- One `textContent` iteration captures exactly the consumed span. -/
theorem pTextIter_span {cs chunk rest : List Char}
    (h : pTextIter cs = some (chunk, rest)) : chunk ++ rest = cs := by
  simp only [pTextIter] at h
  split at h
  · split at h
    · cases h; rfl
    · cases h; rfl
    · cases h; rfl
    · rename_i rest0 hEmp
      split at h
      · exact absurd h (by simp)
      · split at h
        · rename_i r2 heq
          cases h
          have hw := takeWhile_append_drop (fun c => c ≠ '}') rest0
          rw [heq] at hw
          simp only [List.cons_append, List.append_assoc, List.singleton_append,
            List.nil_append]
          rw [hw]
        · exact absurd h (by simp)
    · exact absurd h (by simp)
  · cases h
    exact takeWhile_append_drop _ cs


/-- The `textContent` repetition captures exactly the consumed span. -/
theorem pTextLoop_span : ∀ (f : Nat) (cs : List Char),
    (pTextLoop f cs).1 ++ (pTextLoop f cs).2 = cs := by
  intro f
  induction f with
  | zero => intro cs; rfl
  | succ g ih =>
    intro cs
    rw [pTextLoop_succ]
    rcases hTI : pTextIter cs with _ | ⟨chunk, rest⟩
    · rfl
    · rcases hPL : pTextLoop g rest with ⟨more, r⟩
      have h2 := ih rest
      simp only [List.append_assoc]
      rw [hPL] at h2 ⊢
      dsimp only at h2 ⊢
      rw [h2]
      exact pTextIter_span hTI

/-- The rule `textContent` returns the consumed span as its `Text` node and
leaves a suffix of its input. -/
theorem pTextContent_span {cs : List Char} {n : LitNode} {rest : List Char}
    (h : pTextContent cs = some (n, rest)) :
    rest <:+ cs ∧ ∀ t ∈ textsOfNode n, t.data <:+: cs := by
  unfold pTextContent at h
  rcases hPL : pTextLoop (cs.length + 1) cs with ⟨chunk, r⟩
  rw [hPL] at h
  have hs := pTextLoop_span (cs.length + 1) cs
  rw [hPL] at hs
  rcases chunk with _ | ⟨c, chunk2⟩
  · exact absurd h (by simp)
  · cases h
    refine ⟨⟨c :: chunk2, hs⟩, ?_⟩
    intro t ht
    rw [show textsOfNode (.Text (String.mk (c :: chunk2))) =
      [String.mk (c :: chunk2)] from rfl, List.mem_singleton] at ht
    subst ht
    exact ⟨[], rest, by simpa using hs⟩

/-- The comment-body scanner consumes its content plus the terminator. -/
theorem scanCommentBody_span : ∀ cs cnt r, scanCommentBody cs = some (cnt, r) →
    cnt ++ ('-' :: '}' :: r) = cs := by
  intro cs
  induction cs using scanCommentBody.induct with
  | case1 rest =>
    intro cnt r h
    rw [show scanCommentBody ('-' :: '}' :: rest) = some ([], rest) from rfl] at h
    cases h
    rfl
  | case2 c rest hno cnt2 r2 hsome ih =>
    intro cnt r h
    rw [scanCommentBody.eq_def] at h
    split at h
    · rename_i rest2 heq
      cases heq
      exact (hno rest2 rfl rfl).elim
    · rename_i c2 rest2 hno2 heq
      cases heq
      rw [hsome] at h
      cases h
      simpa using ih cnt2 r2 hsome
    · exact absurd h (by simp)
  | case3 c rest hno hnone ih =>
    intro cnt r h
    rw [scanCommentBody.eq_def] at h
    split at h
    · rename_i rest2 heq
      cases heq
      exact (hno rest2 rfl rfl).elim
    · rename_i c2 rest2 hno2 heq
      cases heq
      rw [hnone] at h
      exact absurd h (by simp)
    · exact absurd h (by simp)
  | case4 =>
    intro cnt r h
    exact absurd h (by simp [scanCommentBody])

/-- The verbatim-body scanner consumes its content plus the terminator. -/
theorem scanVerbatimBody_span : ∀ cs cnt r, scanVerbatimBody cs = some (cnt, r) →
    cnt ++ ('}' :: '}' :: '}' :: r) = cs := by
  intro cs
  induction cs using scanVerbatimBody.induct with
  | case1 rest =>
    intro cnt r h
    rw [show scanVerbatimBody ('}' :: '}' :: '}' :: rest) = some ([], rest)
      from rfl] at h
    cases h
    rfl
  | case2 c rest hno cnt2 r2 hsome ih =>
    intro cnt r h
    rw [scanVerbatimBody.eq_def] at h
    split at h
    · rename_i rest2 heq
      cases heq
      exact (hno rest2 rfl rfl).elim
    · rename_i c2 rest2 hno2 heq
      cases heq
      rw [hsome] at h
      cases h
      simpa using ih cnt2 r2 hsome
    · exact absurd h (by simp)
  | case3 c rest hno hnone ih =>
    intro cnt r h
    rw [scanVerbatimBody.eq_def] at h
    split at h
    · rename_i rest2 heq
      cases heq
      exact (hno rest2 rfl rfl).elim
    · rename_i c2 rest2 hno2 heq
      cases heq
      rw [hnone] at h
      exact absurd h (by simp)
    · exact absurd h (by simp)
  | case4 =>
    intro cnt r h
    exact absurd h (by simp [scanVerbatimBody])

/-- Parser-output invariant: the remainder is a suffix of the input and every
collected `Text` content occurs verbatim as a contiguous span of the input. -/
abbrev SpanOut (cs rest : List Char) (texts : List String) : Prop :=
  rest <:+ cs ∧ ∀ t ∈ texts, t.data <:+: cs

/-- The invariant transports along an enclosing input. -/
theorem spanOut_mono {cs2 cs rest : List Char} {ts : List String}
    (h : SpanOut cs2 rest ts) (hsub : cs2 <:+ cs) : SpanOut cs rest ts :=
  ⟨h.1.trans hsub, fun t ht => (h.2 t ht).trans hsub.isInfix⟩

/-- Sequential composition of the invariant. -/
theorem spanOut_append {cs mid rest : List Char} {ts1 ts2 : List String}
    (h1 : SpanOut cs mid ts1) (h2 : SpanOut mid rest ts2) :
    SpanOut cs rest (ts1 ++ ts2) :=
  ⟨h2.1.trans h1.1, fun t ht => by
    rcases List.mem_append.mp ht with hm | hm
    · exact h1.2 t hm
    · exact (h2.2 t hm).trans h1.1.isInfix⟩

/-- The trivial instance of the invariant: nothing consumed, nothing found. -/
theorem spanOut_rfl (cs : List Char) : SpanOut cs cs [] :=
  ⟨List.suffix_rfl, by simp⟩

/-- The rule `comment` consumes a prefix and yields no `Text` content. -/
theorem pComment_span {cs : List Char} {n : LitNode} {rest : List Char}
    (h : pComment cs = some (n, rest)) :
    SpanOut cs rest (textsOfNode n) := by
  rw [pComment.eq_def] at h
  split at h
  · rename_i rest0
    rcases hS : scanCommentBody rest0 with _ | ⟨cnt, r⟩
    · rw [hS] at h
      exact absurd h (by simp)
    · rw [hS] at h
      change (if cnt.isEmpty = true then none
        else some (LitNode.Comment (String.mk cnt), r)) = some (n, rest) at h
      by_cases hE : cnt.isEmpty = true
      · rw [if_pos hE] at h
        exact absurd h (by simp)
      · rw [if_neg hE] at h
        cases h
        have hspan := scanCommentBody_span rest0 cnt rest hS
        refine ⟨?_, by simp [textsOfNode]⟩
        have h1 : ('-' :: '}' :: rest) <:+ rest0 := hspan ▸ List.suffix_append cnt _
        exact ((suffix_cons2 '-' '}').trans h1).trans (suffix_cons2 '{' '-')
  · exact absurd h (by simp)

/-- The rule `verbatimArgument` consumes a prefix and its one `Text` node is a
verbatim span of the input. -/
theorem pVerbatimArgument_span {cs : List Char} {a : List LitNode}
    {rest : List Char} (h : pVerbatimArgument cs = some (a, rest)) :
    SpanOut cs rest (textsOfDoc a) := by
  rw [pVerbatimArgument.eq_def] at h
  split at h
  · rename_i rest0
    rcases hS : scanVerbatimBody rest0 with _ | ⟨cnt, r⟩
    · rw [hS] at h
      exact absurd h (by simp)
    · rw [hS] at h
      change (if cnt.isEmpty = true then none
        else some ([LitNode.Text (String.mk cnt)], r)) = some (a, rest) at h
      by_cases hE : cnt.isEmpty = true
      · rw [if_pos hE] at h
        exact absurd h (by simp)
      · rw [if_neg hE] at h
        cases h
        have hspan := scanVerbatimBody_span rest0 cnt rest hS
        constructor
        · have h1 : ('}' :: '}' :: '}' :: rest) <:+ rest0 :=
            hspan ▸ List.suffix_append cnt _
          have h2 : rest <:+ ('}' :: '}' :: '}' :: rest) :=
            (suffix_cons2 '}' '}').trans (List.suffix_cons '}' _)
          have h3 : rest0 <:+ ('{' :: '{' :: '{' :: rest0) :=
            (suffix_cons2 '{' '{').trans (List.suffix_cons '{' _)
          exact (h2.trans h1).trans h3
        · intro t ht
          rw [show textsOfDoc [.Text (String.mk cnt)] = [String.mk cnt] by
            simp [textsOfDoc, textsOfNode], List.mem_singleton] at ht
          subst ht
          exact ⟨['{', '{', '{'], '}' :: '}' :: '}' :: rest, by
            simp only [List.cons_append, List.nil_append, List.append_assoc]
            rw [hspan]⟩
  · exact absurd h (by simp)

/-- The rule `functionName` leaves a suffix of its input. -/
theorem pFunctionName_suffix {cs : List Char} {nm : String} {r : List Char}
    (h : pFunctionName cs = some (nm, r)) : r <:+ cs := by
  rcases cs with _ | ⟨c, cs2⟩
  · exact absurd h (by simp [pFunctionName])
  · rw [show pFunctionName (c :: cs2) =
      (if c.isAlpha then
        (if (cs2.takeWhile isFunctionNameRest).isEmpty then none
         else some (String.mk (c :: cs2.takeWhile isFunctionNameRest),
           cs2.drop (cs2.takeWhile isFunctionNameRest).length))
       else none) from rfl] at h
    by_cases hA : c.isAlpha = true
    · rw [if_pos hA] at h
      by_cases hE : (cs2.takeWhile isFunctionNameRest).isEmpty = true
      · rw [if_pos hE] at h
        exact absurd h (by simp)
      · rw [if_neg hE] at h
        cases h
        exact (List.drop_suffix _ _).trans (List.suffix_cons c cs2)
    · rw [if_neg hA] at h
      exact absurd h (by simp)




/-- Unfolding equation of `pArgs` at positive fuel. -/
theorem pArgs_succ (f : Nat) (cs : List Char) :
    pArgs (f + 1) cs = match pArgument f cs with
      | some (a, rest) =>
        let (args, r) := pArgs f rest
        (a :: args, r)
      | none => ([], cs) := rfl

/-- Unfolding equation of `pArgument` at positive fuel. -/
theorem pArgument_succ (f : Nat) (cs : List Char) :
    pArgument (f + 1) cs = match pVerbatimArgument cs with
      | some r => some r
      | none =>
        match pPreformattedArgument f cs with
        | some r => some r
        | none => pRegularArgument f cs := rfl

/-- Unfolding equation of `pPreformattedArgument` at positive fuel. -/
theorem pPreformattedArgument_succ (f : Nat) (cs : List Char) :
    pPreformattedArgument (f + 1) cs = match cs with
      | '{' :: '{' :: rest =>
        match pDoc f rest with
        | (ns, '}' :: '}' :: r2) => some (ns, r2)
        | _ => none
      | _ => none := rfl

/-- Unfolding equation of `pRegularArgument` at positive fuel. -/
theorem pRegularArgument_succ (f : Nat) (cs : List Char) :
    pRegularArgument (f + 1) cs = match cs with
      | '{' :: rest =>
        match pDoc f rest with
        | (ns, '}' :: r2) => some (ns, r2)
        | _ => none
      | _ => none := rfl

/-- At every fuel, every markup-parser rule satisfies the span invariant: the
unconsumed remainder is a suffix of the input and every `Text` content in the
produced nodes is a verbatim contiguous span of the input. -/
theorem markupSpan : ∀ f : Nat,
    (∀ cs ns rest, pDoc f cs = (ns, rest) → SpanOut cs rest (textsOfDoc ns)) ∧
    (∀ cs n rest, pLitNode f cs = some (n, rest) →
      SpanOut cs rest (textsOfNode n)) ∧
    (∀ cs n rest, pFunctionCall f cs = some (n, rest) →
      SpanOut cs rest (textsOfNode n)) ∧
    (∀ cs args rest, pArgs f cs = (args, rest) →
      SpanOut cs rest (textsOfArgs args)) ∧
    (∀ cs a rest, pArgument f cs = some (a, rest) →
      SpanOut cs rest (textsOfDoc a)) ∧
    (∀ cs a rest, pPreformattedArgument f cs = some (a, rest) →
      SpanOut cs rest (textsOfDoc a)) ∧
    (∀ cs a rest, pRegularArgument f cs = some (a, rest) →
      SpanOut cs rest (textsOfDoc a)) := by
  intro f
  induction f with
  | zero =>
    refine ⟨?_, ?_, ?_, ?_, ?_, ?_, ?_⟩ <;> intro cs x rest h
    · cases h
      exact spanOut_rfl cs
    · exact absurd h (by simp [pLitNode])
    · exact absurd h (by simp [pFunctionCall])
    · cases h
      exact spanOut_rfl cs
    · exact absurd h (by simp [pArgument])
    · exact absurd h (by simp [pPreformattedArgument])
    · exact absurd h (by simp [pRegularArgument])
  | succ g ih =>
    obtain ⟨ihD, ihLN, ihFC, ihA, ihArg, ihPre, ihReg⟩ := ih
    have stepD : ∀ cs ns rest, pDoc (g + 1) cs = (ns, rest) →
        SpanOut cs rest (textsOfDoc ns) := by
      intro cs ns rest h
      rw [pDoc_succ] at h
      rcases hLN : pLitNode g cs with _ | ⟨n, rest1⟩
      · rw [hLN] at h
        cases h
        exact spanOut_rfl cs
      · rw [hLN] at h
        change (match pDoc g rest1 with
          | (ns2, r) => (n :: ns2, r)) = (ns, rest) at h
        rcases hD : pDoc g rest1 with ⟨ns2, r2⟩
        rw [hD] at h
        change (n :: ns2, r2) = (ns, rest) at h
        cases h
        exact spanOut_append (ihLN cs n rest1 hLN) (ihD rest1 ns2 rest hD)
    have stepA : ∀ cs args rest, pArgs (g + 1) cs = (args, rest) →
        SpanOut cs rest (textsOfArgs args) := by
      intro cs args rest h
      rw [pArgs_succ] at h
      rcases hArg : pArgument g cs with _ | ⟨a, rest1⟩
      · rw [hArg] at h
        cases h
        exact spanOut_rfl cs
      · rw [hArg] at h
        change (match pArgs g rest1 with
          | (args2, r) => (a :: args2, r)) = (args, rest) at h
        rcases hA : pArgs g rest1 with ⟨args2, r2⟩
        rw [hA] at h
        change (a :: args2, r2) = (args, rest) at h
        cases h
        exact spanOut_append (ihArg cs a rest1 hArg) (ihA rest1 args2 rest hA)
    have stepFC : ∀ cs n rest, pFunctionCall (g + 1) cs = some (n, rest) →
        SpanOut cs rest (textsOfNode n) := by
      intro cs n rest h
      rw [pFunctionCall_succ] at h
      split at h
      · rename_i rest0
        rcases hFN : pFunctionName rest0 with _ | ⟨nm, r1⟩
        · rw [hFN] at h
          exact absurd h (by simp)
        · rw [hFN] at h
          change (match pArgs g r1 with
            | (args, r2) => some (LitNode.Fn nm args, r2)) = some (n, rest) at h
          rcases hA : pArgs g r1 with ⟨args, r2⟩
          rw [hA] at h
          change some (LitNode.Fn nm args, r2) = some (n, rest) at h
          cases h
          have h1 := ihA r1 args rest hA
          have h2 : r1 <:+ rest0 := pFunctionName_suffix hFN
          exact spanOut_mono h1 (h2.trans (List.suffix_cons '\\' rest0))
      · exact absurd h (by simp)
    have stepLN : ∀ cs n rest, pLitNode (g + 1) cs = some (n, rest) →
        SpanOut cs rest (textsOfNode n) := by
      intro cs n rest h
      rw [pLitNode_succ] at h
      rcases hFC : pFunctionCall g cs with _ | ⟨n2, r2⟩
      · rw [hFC] at h
        rcases hC : pComment cs with _ | ⟨n2, r2⟩
        · rw [hC] at h
          change pTextContent cs = some (n, rest) at h
          exact pTextContent_span h
        · rw [hC] at h
          change some (n2, r2) = some (n, rest) at h
          cases h
          exact pComment_span hC
      · rw [hFC] at h
        change some (n2, r2) = some (n, rest) at h
        cases h
        exact ihFC cs n rest hFC
    have stepPre : ∀ cs a rest, pPreformattedArgument (g + 1) cs = some (a, rest) →
        SpanOut cs rest (textsOfDoc a) := by
      intro cs a rest h
      rw [pPreformattedArgument_succ] at h
      split at h
      · rename_i rest0
        rcases hD : pDoc g rest0 with ⟨ns, rr⟩
        rw [hD] at h
        split at h
        · rename_i ns2 r2 heq
          cases heq
          cases h
          have h1 := ihD rest0 a ('}' :: '}' :: rest) hD
          constructor
          · exact ((suffix_cons2 '}' '}').trans h1.1).trans (suffix_cons2 '{' '{')
          · intro t ht
            exact (h1.2 t ht).trans (suffix_cons2 '{' '{').isInfix
        · exact absurd h (by simp)
      · exact absurd h (by simp)
    have stepReg : ∀ cs a rest, pRegularArgument (g + 1) cs = some (a, rest) →
        SpanOut cs rest (textsOfDoc a) := by
      intro cs a rest h
      rw [pRegularArgument_succ] at h
      split at h
      · rename_i rest0
        rcases hD : pDoc g rest0 with ⟨ns, rr⟩
        rw [hD] at h
        split at h
        · rename_i ns2 r2 heq
          cases heq
          cases h
          have h1 := ihD rest0 a ('}' :: rest) hD
          constructor
          · exact ((List.suffix_cons '}' rest).trans h1.1).trans
              (List.suffix_cons '{' rest0)
          · intro t ht
            exact (h1.2 t ht).trans (List.suffix_cons '{' rest0).isInfix
        · exact absurd h (by simp)
      · exact absurd h (by simp)
    have stepArg : ∀ cs a rest, pArgument (g + 1) cs = some (a, rest) →
        SpanOut cs rest (textsOfDoc a) := by
      intro cs a rest h
      rw [pArgument_succ] at h
      rcases hV : pVerbatimArgument cs with _ | ⟨a2, r2⟩
      · rw [hV] at h
        rcases hP : pPreformattedArgument g cs with _ | ⟨a2, r2⟩
        · rw [hP] at h
          change pRegularArgument g cs = some (a, rest) at h
          exact ihReg cs a rest h
        · rw [hP] at h
          change some (a2, r2) = some (a, rest) at h
          cases h
          exact ihPre cs a rest hP
      · rw [hV] at h
        change some (a2, r2) = some (a, rest) at h
        cases h
        exact pVerbatimArgument_span hV
    exact ⟨stepD, stepLN, stepFC, stepA, stepArg, stepPre, stepReg⟩


/-- C7 (amended): the markup parser keeps escapes as written in every `Text`
node it produces: for every accepted input, the content of every `Text` node
anywhere in the parsed document is a verbatim contiguous span of the source
characters, so the escape sequences `\{`, `\}`, `\\` inside `Text` content
appear exactly as written in the source and are never resolved by the parser
(on the two-character input `\{` the parse is a `Text` node holding the two
characters `\{`, not the single character `{`); resolution of `\{` and `\}`
happens later, in the text renderer `text_to_markdown`, which maps that node
to the single character `{`. -/
theorem c7_escape_unresolved_amended :
    (∀ (s : String) (doc : List LitNode), lit_parse s = some doc →
      ∀ t ∈ textsOfDoc doc, t.data <:+: s.data) ∧
    lit_parse "\\\x7b" = some [.Text "\\\x7b"] ∧
    MainRs.text_to_markdown [.Text "\\\x7b"] = some "\x7b" := by
  refine ⟨?_, rfl, rfl⟩
  intro s doc h t ht
  unfold lit_parse at h
  rcases hD : pDoc (8 * s.data.length + 16) s.data with ⟨ns, rest⟩
  rw [hD] at h
  rcases rest with _ | ⟨c, rest2⟩
  · change some ns = some doc at h
    cases h
    exact ((markupSpan _).1 s.data doc [] hD).2 t ht
  · exact absurd h (by simp)

/-- Witness for C7 (amended): the universal span property applied at the
input `\{`, whose one `Text` node keeps the backslash. -/
theorem c7_escape_unresolved_amended_witness :
    lit_parse "\\\x7b" = some [.Text "\\\x7b"] ∧
    "\\\x7b" ∈ textsOfDoc [.Text "\\\x7b"] ∧
    ("\\\x7b" : String).data <:+: ("\\\x7b" : String).data :=
  ⟨rfl, by simp [textsOfDoc, textsOfNode],
    c7_escape_unresolved_amended.1 "\\\x7b" [.Text "\\\x7b"] rfl "\\\x7b"
      (by simp [textsOfDoc, textsOfNode])⟩

/-! ### Claim C9 -/

set_option maxHeartbeats 1000000 in
/-- C9: when two attribute calls inside the same schema's property list
declare the same (rendered) property name, extraction still succeeds and the
resulting Schema's property map contains exactly one entry for that name —
the later declaration in document order silently overwrites the earlier one,
with no error. -/
theorem c9_duplicate_property_overwrites
    (sn x1 x2 t1 t2 d1 d2 nm1 nm2 key snr ds1 ds2 : String)
    (h1 : nm1 = "required-attribute" ∨ nm1 = "optional-attribute")
    (h2 : nm2 = "required-attribute" ∨ nm2 = "optional-attribute")
    (hsn : MainRs.text_to_markdown [.Text sn] = some snr)
    (hx1 : MainRs.text_to_markdown [.Text x1] = some key)
    (hx2 : MainRs.text_to_markdown [.Text x2] = some key)
    (hd1 : MainRs.text_to_markdown [.Text d1] = some ds1)
    (hd2 : MainRs.text_to_markdown [.Text d2] = some ds2) :
    MainRs.transform_to_jsonschemas
      [.Fn "schema" [[.Text sn],
        [.Fn nm1 [[.Text x1], [.Text t1], [.Text d1]],
         .Fn nm2 [[.Text x2], [.Text t2], [.Text d2]]]]] =
      some [{ schema_name := MainRs.schemaNameOf snr,
              properties := [(key,
                { type_name := MainRs.parse_type
                    (rustReplace (rustTrim (MainRs.raw_text [.Text t2])) "-" "_"),
                  required := nm2 == "required-attribute",
                  list := rustStartsWith (rustTrim (MainRs.raw_text [.Text t2])) "[",
                  docs := ds2 })] }] := by
  rcases h1 with h | h <;> subst h <;> rcases h2 with h | h <;> subst h <;>
    simp [MainRs.transform_to_jsonschemas, MainRs.transformNode,
      MainRs.transformProps, MainRs.transformArgs, Option.bind,
      hsn, hx1, hx2, hd1, hd2, hashMapOfList, hashMapInsert]

/-- Witness for C9 at two concrete attribute calls named "x". -/
theorem c9_duplicate_property_overwrites_witness :
    MainRs.text_to_markdown [.Text "s"] = some "s" ∧
    MainRs.text_to_markdown [.Text "x"] = some "x" ∧
    MainRs.text_to_markdown [.Text "D1"] = some "D1" ∧
    MainRs.text_to_markdown [.Text "D2"] = some "D2" ∧
    MainRs.transform_to_jsonschemas
      [.Fn "schema" [[.Text "s"],
        [.Fn "required-attribute" [[.Text "x"], [.Text "a"], [.Text "D1"]],
         .Fn "optional-attribute" [[.Text "x"], [.Text "b"], [.Text "D2"]]]]] =
      some [{ schema_name := MainRs.schemaNameOf "s",
              properties := [("x",
                { type_name := MainRs.parse_type
                    (rustReplace (rustTrim (MainRs.raw_text [.Text "b"])) "-" "_"),
                  required := ("optional-attribute" : String) == "required-attribute",
                  list := rustStartsWith (rustTrim (MainRs.raw_text [.Text "b"])) "[",
                  docs := "D2" })] }] :=
  ⟨rfl, rfl, rfl, rfl,
    c9_duplicate_property_overwrites "s" "x" "x" "a" "b" "D1" "D2"
      "required-attribute" "optional-attribute" "x" "s" "D1" "D2"
      (Or.inl rfl) (Or.inr rfl) rfl rfl rfl rfl rfl⟩

/-! ### Claim C10 -/

/-- C10 counterexample: on the type string "a" both implementations succeed
(the `main.rs` one is total) but deliver structurally different results. -/
theorem c10_parsers_disagree_counterexample :
    MainRs.parse_type "a" = .Ref "a" ∧
    ConvertRs.parse_type "a" = some (.OneOf [.Ref "a"]) ∧
    PropertyType.Ref "a" ≠ .OneOf [.Ref "a"] :=
  ⟨rfl, rfl, by simp⟩

/-- A member of the flat-union fragment on which the two type parsers agree:
a plain identifier or a backtick-quoted constant. -/
inductive FlatMember where
  | key (s : String)
  | const (s : String)

/-- Well-formedness of a flat member: the identifier is nonempty, consists of
key characters only (`[A-Za-z0-9._]`, hence no pipe, bracket, brace,
backtick or whitespace), and contains no dot (so the PEG's dotted-reference
normalization does not fire). -/
def FlatMember.wf : FlatMember → Prop
  | .key s => s.data ≠ [] ∧ ∀ c ∈ s.data, isKeyOrValueChar c = true ∧ c ≠ '.'
  | .const s => s.data ≠ [] ∧ ∀ c ∈ s.data, isKeyOrValueChar c = true ∧ c ≠ '.'

/-- The type-string syntax of a flat member. -/
def FlatMember.render : FlatMember → String
  | .key s => s
  | .const s => "`" ++ s ++ "`"

/-- The `PropertyType` both parsers associate with a flat member. -/
def FlatMember.value : FlatMember → PropertyType
  | .key s => .Ref s
  | .const s => .Constant s

/-- The pipe-joined type string of a member list. -/
def renderUnion (ms : List FlatMember) : String :=
  joinWith "|" (ms.map FlatMember.render)

/-- Collapse a singleton `OneOf` to its only member (and change nothing
else): the structural difference between the two parsers on this fragment. -/
def collapseSingletonOneOf : PropertyType → PropertyType
  | .OneOf [t] => t
  | t => t

/-- The character stream of the separators-and-members tail of a union. -/
def unionTailChars : List FlatMember → List Char
  | [] => []
  | m :: ms => '|' :: m.render.data ++ unionTailChars ms

/-- The `String.append` concatenates the character data. -/
theorem strData_append (a b : String) : (a ++ b).data = a.data ++ b.data := rfl

/-- The `(String.mk l).data` is `l`. -/
theorem strData_mk (l : List Char) : (String.mk l).data = l := rfl

/-- Character stream of a pipe-joined nonempty member list. -/
theorem renderUnion_cons (m : FlatMember) (ms : List FlatMember) :
    (renderUnion (m :: ms)).data = m.render.data ++ unionTailChars ms := by
  induction ms generalizing m with
  | nil => simp [renderUnion, joinWith, unionTailChars]
  | cons m2 ms2 ih =>
    have : renderUnion (m :: m2 :: ms2) = m.render ++ "|" ++ renderUnion (m2 :: ms2) := rfl
    rw [this, strData_append, strData_append, ih m2]
    simp [unionTailChars]

/-- A key character is none of the special grammar characters. -/
theorem keyChar_not_special (c : Char) (h : isKeyOrValueChar c = true) :
    c ≠ '[' ∧ c ≠ '\x7b' ∧ c ≠ '`' ∧ c ≠ '|' ∧ c ≠ ' ' ∧ c ≠ '\n' := by
  refine ⟨?_, ?_, ?_, ?_, ?_, ?_⟩ <;> rintro rfl <;> exact absurd h (by decide)

/-- A key character is not whitespace. -/
theorem keyChar_not_ws (c : Char) (h : isKeyOrValueChar c = true) :
    c.isWhitespace = false := by
  by_cases h1 : c = ' '
  · subst h1; exact absurd h (by decide)
  by_cases h2 : c = '\t'
  · subst h2; exact absurd h (by decide)
  by_cases h3 : c = '\r'
  · subst h3; exact absurd h (by decide)
  by_cases h4 : c = '\n'
  · subst h4; exact absurd h (by decide)
  simp [Char.isWhitespace, h1, h2, h3, h4]

/-- The `takeWhile` over a satisfying prefix followed by a failing head. -/
theorem takeWhile_sat_append (p : Char → Bool) (l1 l2 : List Char)
    (h1 : ∀ c ∈ l1, p c = true)
    (h2 : match l2 with | [] => True | c :: _ => p c = false) :
    (l1 ++ l2).takeWhile p = l1 := by
  induction l1 with
  | nil =>
    cases l2 with
    | nil => rfl
    | cons c cs => simp [List.takeWhile_cons, h2]
  | cons a l1 ih =>
    have ha := h1 a (by simp)
    simp [List.takeWhile_cons, ha, ih (fun c hc => h1 c (by simp [hc]))]

/-- The `key_or_value_string` consumes exactly a key-character prefix. -/
theorem pKeyOrValueString_spec (s : String) (rest : List Char)
    (hs : s.data ≠ []) (hall : ∀ c ∈ s.data, isKeyOrValueChar c = true)
    (hrest : match rest with | [] => True | c :: _ => isKeyOrValueChar c = false) :
    pKeyOrValueString (s.data ++ rest) = some (s, rest) := by
  unfold pKeyOrValueString
  simp [takeWhile_sat_append _ _ _ hall hrest, List.drop_left, List.isEmpty_iff, hs]

/-- The `array_type` fails whenever the input does not start with `[`. -/
theorem pArrayType_not_bracket (g : Nat) (c : Char) (cs : List Char)
    (h : c ≠ '[') : pArrayType g (c :: cs) = none := by
  cases g with
  | zero => rfl
  | succ g =>
    rw [pArrayType_succ]
    split <;> simp_all

/-- The `dictionary_type` fails whenever the input does not start with `{`. -/
theorem pDictionaryType_not_brace (c : Char) (cs : List Char)
    (h : c ≠ '\x7b') : pDictionaryType (c :: cs) = none := by
  rw [pDictionaryType.eq_def]
  split <;> simp_all

/-- The `constant_type` fails whenever the input does not start with a
backtick. -/
theorem pConstantType_not_tick (c : Char) (cs : List Char)
    (h : c ≠ '`') : pConstantType (c :: cs) = none := by
  rw [pConstantType.eq_def]
  split <;> simp_all

/-- A character list avoiding `'.'` does not contain it. -/
theorem not_contains_dot (l : List Char) (h : ∀ c ∈ l, c ≠ '.') :
    l.contains '.' = false := by
  induction l with
  | nil => rfl
  | cons a l ih =>
    have ha : ('.' == a) = false := by
      have := h a (by simp)
      simp [BEq.beq]
      intro hEq
      exact absurd hEq.symm this
    simp only [List.contains, List.elem_cons, ha]
    exact ih (fun c hc => h c (by simp [hc]))

/-- The type grammar's whitespace rule leaves a non-whitespace head alone. -/
theorem typeWs_id (c : Char) (cs : List Char)
    (h1 : c ≠ ' ') (h2 : c ≠ '\n') : typeWs (c :: cs) = c :: cs := by
  unfold typeWs
  rw [List.dropWhile_cons]
  simp [h1, h2]

/-- The tail stream of a union is empty or starts with a pipe, which is not a
key character. -/
theorem unionTailChars_head (ms : List FlatMember) :
    match unionTailChars ms with
    | [] => True
    | c :: _ => isKeyOrValueChar c = false := by
  cases ms with
  | nil => trivial
  | cons m ms => exact (by decide : isKeyOrValueChar '|' = false)

/-- A nonempty identifier's data starts with a key character. -/
theorem wf_head (s : String) (hne : s.data ≠ [])
    (hall : ∀ c ∈ s.data, isKeyOrValueChar c = true ∧ c ≠ '.') :
    ∃ c0 s', s.data = c0 :: s' ∧ isKeyOrValueChar c0 = true := by
  cases hd : s.data with
  | nil => exact absurd hd hne
  | cons a l =>
    refine ⟨a, l, rfl, ?_⟩
    exact (hall a (by rw [hd]; simp)).1

/-- The `non_union_type` consumes exactly one flat member, any fuel reserve. -/
theorem pNonUnionType_member (g : Nat) (m : FlatMember) (rest : List Char)
    (hwf : m.wf)
    (hrest : match rest with | [] => True | c :: _ => isKeyOrValueChar c = false) :
    pNonUnionType (g + 1) (m.render.data ++ rest) = some (m.value, rest) := by
  rcases m with s | s
  · obtain ⟨hne, hall⟩ := hwf
    obtain ⟨c0, s', hs, hc0⟩ := wf_head s hne hall
    obtain ⟨hb, hbr, hbt, _, _, _⟩ := keyChar_not_special c0 hc0
    have harr : pArrayType g (s.data ++ rest) = none := by
      rw [hs, List.cons_append]
      exact pArrayType_not_bracket _ _ _ hb
    have hdict : pDictionaryType (s.data ++ rest) = none := by
      rw [hs, List.cons_append]
      exact pDictionaryType_not_brace _ _ hbr
    have htick : pConstantType (s.data ++ rest) = none := by
      rw [hs, List.cons_append]
      exact pConstantType_not_tick _ _ hbt
    have href : pRefType (s.data ++ rest) = some (.Ref s, rest) := by
      unfold pRefType
      rw [pKeyOrValueString_spec s rest hne (fun c hc => (hall c hc).1) hrest]
      simp [not_contains_dot s.data (fun c hc => (hall c hc).2)]
      intro hdot
      exact absurd rfl (hall '.' hdot).2
    show pNonUnionType (g + 1) (s.data ++ rest) = some (.Ref s, rest)
    rw [pNonUnionType_succ, harr, hdict, htick, href]
  · obtain ⟨hne, hall⟩ := hwf
    have hshape : (FlatMember.render (.const s)).data ++ rest =
        '`' :: (s.data ++ ('`' :: rest)) := by
      show ("`" ++ s ++ "`").data ++ rest = _
      rw [strData_append, strData_append]
      simp
    have hkey : pKeyOrValueString (s.data ++ ('`' :: rest)) = some (s, '`' :: rest) :=
      pKeyOrValueString_spec s _ hne (fun c hc => (hall c hc).1)
        (by decide : isKeyOrValueChar '`' = false)
    have hconst : pConstantType ('`' :: (s.data ++ ('`' :: rest))) =
        some (.Constant s, rest) := by
      simp [pConstantType, hkey]
    rw [hshape, pNonUnionType_succ,
      pArrayType_not_bracket _ _ _ (by decide),
      pDictionaryType_not_brace _ _ (by decide), hconst]
    rfl

/-- The `typeWs` leaves a member-headed stream unchanged. -/
theorem member_head_typeWs (m : FlatMember) (hwf : m.wf) (rest : List Char) :
    typeWs (m.render.data ++ rest) = m.render.data ++ rest := by
  rcases m with s | s
  · obtain ⟨hne, hall⟩ := hwf
    obtain ⟨c0, s', hs, hc0⟩ := wf_head s hne hall
    obtain ⟨_, _, _, _, hsp, hnl⟩ := keyChar_not_special c0 hc0
    show typeWs (s.data ++ rest) = s.data ++ rest
    rw [hs, List.cons_append]
    exact typeWs_id _ _ hsp hnl
  · have hshape : (FlatMember.render (.const s)).data ++ rest =
        '`' :: (s.data ++ ('`' :: rest)) := by
      show ("`" ++ s ++ "`").data ++ rest = _
      rw [strData_append, strData_append]
      simp
    rw [hshape]
    exact typeWs_id _ _ (by decide) (by decide)

/-- The separated repetition of `union_type` consumes the whole tail of a
well-formed flat union, one member per separator. -/
theorem pUnionTail_members :
    ∀ (ms : List FlatMember) (g : Nat), (∀ m ∈ ms, m.wf) →
    pUnionTail (2 * ms.length + g + 1) (unionTailChars ms) =
      (ms.map FlatMember.value, []) := by
  intro ms
  induction ms with
  | nil =>
    intro g hwf
    rw [show 2 * ([] : List FlatMember).length + g + 1 = g + 1 by simp]
    rw [pUnionTail_succ]
    rfl
  | cons m ms ih =>
    intro g hwf
    have hfuel : 2 * (m :: ms).length + g + 1 = (2 * ms.length + (g + 1) + 1) + 1 := by
      simp only [List.length_cons]
      omega
    rw [hfuel, pUnionTail_succ]
    rw [show unionTailChars (m :: ms) = '|' :: (m.render.data ++ unionTailChars ms)
      from rfl]
    rw [typeWs_id '|' _ (by decide) (by decide)]
    simp only [member_head_typeWs m (hwf m (by simp)),
      pNonUnionType_member (2 * ms.length + (g + 1)) m (unionTailChars ms)
        (hwf m (by simp)) (unionTailChars_head ms),
      ih (g + 1) (fun m' hm' => hwf m' (by simp [hm']))]
    simp

/-- Each member contributes at least one character to the union tail. -/
theorem unionTailChars_length (ms : List FlatMember) :
    ms.length ≤ (unionTailChars ms).length := by
  induction ms with
  | nil => simp [unionTailChars]
  | cons m ms ih =>
    simp only [unionTailChars, List.length_cons, List.length_append]
    omega

/-- The `union_type` parses a whole well-formed flat union. -/
theorem pUnionType_members (m : FlatMember) (ms : List FlatMember) (g : Nat)
    (hwf : ∀ x ∈ m :: ms, x.wf) :
    pUnionType (2 * ms.length + g + 2) ((renderUnion (m :: ms)).data) =
      some (.OneOf ((m :: ms).map FlatMember.value), []) := by
  rw [show 2 * ms.length + g + 2 = (2 * ms.length + g + 1) + 1 from rfl]
  rw [pUnionType_succ, renderUnion_cons]
  simp only [pNonUnionType_member (2 * ms.length + g) m (unionTailChars ms)
      (hwf m (by simp)) (unionTailChars_head ms),
    pUnionTail_members ms g (fun x hx => hwf x (by simp [hx]))]
  simp

/-- The `convert.rs` type parser on a well-formed flat union: every member in
order, wrapped in a single `OneOf`, consuming the whole string. -/
theorem convertParse_flatUnion (ms : List FlatMember) (hne : ms ≠ [])
    (hwf : ∀ m ∈ ms, m.wf) :
    ConvertRs.parse_type (renderUnion ms) =
      some (.OneOf (ms.map FlatMember.value)) := by
  rcases ms with _ | ⟨m, ms⟩
  · exact absurd rfl hne
  unfold ConvertRs.parse_type
  obtain ⟨g, hg⟩ : ∃ g, 4 * (renderUnion (m :: ms)).data.length + 8 =
      2 * ms.length + g + 3 := by
    have h1 : ms.length ≤ (unionTailChars ms).length := unionTailChars_length ms
    have h2 : (renderUnion (m :: ms)).data.length =
        m.render.data.length + (unionTailChars ms).length := by
      rw [renderUnion_cons, List.length_append]
    exact ⟨4 * (renderUnion (m :: ms)).data.length + 5 - 2 * ms.length, by omega⟩
  rw [hg]
  rw [show 2 * ms.length + g + 3 = (2 * ms.length + g + 2) + 1 from rfl]
  rw [pLitType_succ]
  rw [pUnionType_members m ms g hwf]

/-- The `String.mk` after `.data` is the identity. -/
@[simp] theorem strMk_data_id (s : String) : String.mk s.data = s := rfl

/-- The `splitOnCharAux` over a separator-free stream: one chunk. -/
theorem splitOnCharAux_no_sep (c : Char) (l1 : List Char) (acc : List Char)
    (h : ∀ x ∈ l1, x ≠ c) :
    splitOnCharAux c l1 acc = [acc.reverse ++ l1] := by
  induction l1 generalizing acc with
  | nil => simp [splitOnCharAux]
  | cons a l1 ih =>
    have ha : a ≠ c := h a (by simp)
    simp only [splitOnCharAux, if_neg ha]
    rw [ih (a :: acc) (fun x hx => h x (by simp [hx]))]
    simp

/-- The `splitOnCharAux` at the first separator after a separator-free prefix. -/
theorem splitOnCharAux_sep (c : Char) (l1 l2 : List Char) (acc : List Char)
    (h : ∀ x ∈ l1, x ≠ c) :
    splitOnCharAux c (l1 ++ c :: l2) acc =
      (acc.reverse ++ l1) :: splitOnCharAux c l2 [] := by
  induction l1 generalizing acc with
  | nil => simp [splitOnCharAux]
  | cons a l1 ih =>
    have ha : a ≠ c := h a (by simp)
    simp only [List.cons_append, splitOnCharAux, if_neg ha, List.append_eq]
    rw [ih (a :: acc) (fun x hx => h x (by simp [hx]))]
    simp

/-- No character of a flat member's syntax is a pipe. -/
theorem member_no_pipe (m : FlatMember) (hwf : m.wf) :
    ∀ x ∈ m.render.data, x ≠ '|' := by
  rcases m with s | s
  · intro x hx
    exact (keyChar_not_special x (hwf.2 x hx).1).2.2.2.1
  · intro x hx
    have hd : (FlatMember.render (.const s)).data = '`' :: (s.data ++ ['`']) := by
      show ("`" ++ s ++ "`").data = _
      rw [strData_append, strData_append]
      simp
    rw [hd] at hx
    simp only [List.mem_cons, List.mem_append] at hx
    rcases hx with rfl | hx | hx
    · decide
    · exact (keyChar_not_special x (hwf.2 x hx).1).2.2.2.1
    · have hx2 : x = '`' := by simpa using hx
      subst hx2
      decide

/-- Splitting a well-formed flat union on pipes recovers the members. -/
theorem splitUnion : ∀ (m : FlatMember) (ms : List FlatMember),
    (∀ x ∈ m :: ms, x.wf) →
    splitOnCharAux '|' ((renderUnion (m :: ms)).data) [] =
      (m :: ms).map (fun x => x.render.data) := by
  intro m ms
  induction ms generalizing m with
  | nil =>
    intro hwf
    rw [renderUnion_cons]
    simp only [unionTailChars, List.append_nil]
    rw [splitOnCharAux_no_sep _ _ _ (member_no_pipe m (hwf m (by simp)))]
    simp
  | cons m2 ms ih =>
    intro hwf
    rw [renderUnion_cons]
    rw [show unionTailChars (m2 :: ms) = '|' :: (m2.render.data ++ unionTailChars ms)
      from rfl]
    rw [splitOnCharAux_sep _ _ _ _ (member_no_pipe m (hwf m (by simp)))]
    rw [← renderUnion_cons m2 ms]
    rw [ih m2 (fun x hx => hwf x (by simp [hx]))]
    simp

/-- Rust `split('|')` on a well-formed flat union yields the member
syntaxes. -/
theorem rustSplit_union (m : FlatMember) (ms : List FlatMember)
    (hwf : ∀ x ∈ m :: ms, x.wf) :
    rustSplit (renderUnion (m :: ms)) '|' = (m :: ms).map FlatMember.render := by
  unfold rustSplit
  rw [splitUnion m ms hwf]
  simp [List.map_map, Function.comp]

/-- The `dropWhile` over a stream whose characters all fail the predicate. -/
theorem dropWhile_all_false (p : Char → Bool) (l : List Char)
    (h : ∀ c ∈ l, p c = false) : l.dropWhile p = l := by
  cases l with
  | nil => rfl
  | cons a l => simp [List.dropWhile_cons, h a (by simp)]

/-- Rust `trim` leaves a whitespace-free string unchanged. -/
theorem rustTrim_id (s : String) (h : ∀ c ∈ s.data, c.isWhitespace = false) :
    rustTrim s = s := by
  unfold rustTrim
  rw [dropWhile_all_false _ _ h]
  rw [dropWhile_all_false _ _ (fun c hc => h c (by simpa using hc))]
  simp

/-- No character of a flat member's syntax is whitespace. -/
theorem member_no_ws (m : FlatMember) (hwf : m.wf) :
    ∀ c ∈ m.render.data, c.isWhitespace = false := by
  rcases m with s | s
  · intro c hc
    exact keyChar_not_ws c (hwf.2 c hc).1
  · intro c hc
    have hd : (FlatMember.render (.const s)).data = '`' :: (s.data ++ ['`']) := by
      show ("`" ++ s ++ "`").data = _
      rw [strData_append, strData_append]
      simp
    rw [hd] at hc
    simp only [List.mem_cons, List.mem_append] at hc
    rcases hc with rfl | hc | hc
    · decide
    · exact keyChar_not_ws c (hwf.2 c hc).1
    · have hc2 : c = '`' := by simpa using hc
      subst hc2
      decide

/-- The `starts_with` is false when the heads differ. -/
theorem rustStartsWith_head_ne (s pre : String) (c0 p0 : Char)
    (cs ps : List Char) (hs : s.data = c0 :: cs) (hp : pre.data = p0 :: ps)
    (h : c0 ≠ p0) : rustStartsWith s pre = false := by
  unfold rustStartsWith
  rw [hs, hp]
  have hb : (p0 == c0) = false := beq_eq_false_iff_ne.mpr (Ne.symm h)
  simp [List.isPrefixOf, hb]

/-- A flat member's syntax starts with a non-bracket character. -/
theorem member_head_exists (m : FlatMember) (hwf : m.wf) :
    ∃ c0 cs, m.render.data = c0 :: cs ∧ c0 ≠ '[' := by
  rcases m with s | s
  · obtain ⟨hne, hall⟩ := hwf
    obtain ⟨c0, s', hs, hc0⟩ := wf_head s hne hall
    exact ⟨c0, s', hs, (keyChar_not_special c0 hc0).1⟩
  · refine ⟨'`', s.data ++ ['`'], ?_, by decide⟩
    show ("`" ++ s ++ "`").data = _
    rw [strData_append, strData_append]
    simp

/-- Each step of `trim_start_matches` when the pattern is not a prefix. -/
theorem trimStartMatchesAux_stop (pat : List Char) (f : Nat) (l : List Char)
    (h : pat.isPrefixOf l = false) : trimStartMatchesAux pat f l = l := by
  cases f with
  | zero => rfl
  | succ f => simp [trimStartMatchesAux, h]

/-- Each step of `trim_start_matches` when the pattern is a nonempty
prefix. -/
theorem trimStartMatchesAux_step (pat : List Char) (f : Nat) (l : List Char)
    (h1 : pat.isPrefixOf l = true) (h2 : pat ≠ []) :
    trimStartMatchesAux pat (f + 1) l =
      trimStartMatchesAux pat f (l.drop pat.length) := by
  have h3 : pat.isEmpty = false := by
    cases pat with
    | nil => exact absurd rfl h2
    | cons a l2 => rfl
  simp [trimStartMatchesAux, h1, h3]

/-- Stripping the backticks of a constant member recovers the identifier. -/
theorem constStrip (s : String) (hne : s.data ≠ [])
    (hall : ∀ c ∈ s.data, isKeyOrValueChar c = true) :
    trimEndMatches (trimStartMatches (FlatMember.render (.const s)) "`") "`" = s := by
  obtain ⟨c0, s', hs⟩ : ∃ c0 s', s.data = c0 :: s' := by
    cases hd : s.data with
    | nil => exact absurd hd hne
    | cons a l => exact ⟨a, l, rfl⟩
  have hc0 : isKeyOrValueChar c0 = true := hall c0 (by rw [hs]; simp)
  have hbt : c0 ≠ '`' := (keyChar_not_special c0 hc0).2.2.1
  have hd : (FlatMember.render (.const s)).data = '`' :: (s.data ++ ['`']) := by
    show ("`" ++ s ++ "`").data = _
    rw [strData_append, strData_append]
    simp
  have hstart : trimStartMatches (FlatMember.render (.const s)) "`" =
      String.mk (s.data ++ ['`']) := by
    unfold trimStartMatches
    rw [hd]
    rw [trimStartMatchesAux_step _ _ _ (by simp [List.isPrefixOf]) (by simp)]
    rw [show (('`' :: (s.data ++ ['`'])).drop ("`".data.length)) = s.data ++ ['`']
      from rfl]
    rw [trimStartMatchesAux_stop]
    rw [hs]
    simp [List.isPrefixOf, beq_eq_false_iff_ne.mpr (Ne.symm hbt)]
  rw [hstart]
  unfold trimEndMatches
  rw [strData_mk]
  rw [show (s.data ++ ['`']).reverse = '`' :: s.data.reverse by simp]
  rw [trimStartMatchesAux_step _ _ _ (by simp [List.isPrefixOf]) (by simp)]
  rw [show (('`' :: s.data.reverse).drop ("`".data.reverse.length)) = s.data.reverse
    from rfl]
  have hrev : ∃ c1 rs, s.data.reverse = c1 :: rs ∧ c1 ≠ '`' := by
    cases hr : s.data.reverse with
    | nil =>
      have : s.data = [] := by simpa using congrArg List.reverse hr
      exact absurd this hne
    | cons c1 rs =>
      refine ⟨c1, rs, rfl, ?_⟩
      have hc1 : c1 ∈ s.data := by
        have : c1 ∈ s.data.reverse := by rw [hr]; simp
        simpa using this
      exact (keyChar_not_special c1 (hall c1 hc1)).2.2.1
  obtain ⟨c1, rs, hr, hc1⟩ := hrev
  rw [trimStartMatchesAux_stop]
  · simp
  · rw [hr]
    simp [List.isPrefixOf, beq_eq_false_iff_ne.mpr (Ne.symm hc1)]

/-- Unfolding equation of `parseTypeAux` at positive fuel. -/
theorem parseTypeAux_succ (f : Nat) (s : String) :
    MainRs.parseTypeAux (f + 1) s =
      if rustStartsWith s "[" && rustEndsWith s "]" then
        .ArrayOf (MainRs.parseTypeAux f (trimEndMatches (trimStartMatches s "[") "]"))
      else
        let parts := rustSplit s '|'
        if parts.length > 1 then
          .OneOf (parts.map (fun t => MainRs.parseTypeAux f (rustTrim t)))
        else if rustStartsWith s "`" && rustEndsWith s "`" then
          .Constant (trimEndMatches (trimStartMatches s "`") "`")
        else .Ref s := rfl

/-- The `main.rs` `parse_type` worker maps one flat member to its value,
at any positive fuel. -/
theorem mainMember (g : Nat) (m : FlatMember) (hwf : m.wf) :
    MainRs.parseTypeAux (g + 1) m.render = m.value := by
  rcases m with s | s
  · obtain ⟨hne, hall⟩ := hwf
    obtain ⟨c0, s', hs, hc0⟩ := wf_head s hne hall
    obtain ⟨hb, _, hbt, _, _, _⟩ := keyChar_not_special c0 hc0
    have h1 : rustStartsWith s "[" = false :=
      rustStartsWith_head_ne s "[" c0 '[' s' [] hs rfl hb
    have h3 : rustStartsWith s "`" = false :=
      rustStartsWith_head_ne s "`" c0 '`' s' [] hs rfl hbt
    have hsplit : rustSplit s '|' = [s] := by
      unfold rustSplit
      rw [splitOnCharAux_no_sep '|' s.data []
        (fun x hx => (keyChar_not_special x (hall x hx).1).2.2.2.1)]
      simp
    show MainRs.parseTypeAux (g + 1) s = .Ref s
    rw [parseTypeAux_succ]
    simp [h1, h3, hsplit]
  · obtain ⟨hne, hall⟩ := hwf
    have hd : (FlatMember.render (.const s)).data = '`' :: (s.data ++ ['`']) := by
      show ("`" ++ s ++ "`").data = _
      rw [strData_append, strData_append]
      simp
    have h1 : rustStartsWith (FlatMember.render (.const s)) "[" = false :=
      rustStartsWith_head_ne _ "[" '`' '[' _ [] hd rfl (by decide)
    have h3 : rustStartsWith (FlatMember.render (.const s)) "`" = true := by
      unfold rustStartsWith
      rw [hd]
      simp [List.isPrefixOf]
    have h4 : rustEndsWith (FlatMember.render (.const s)) "`" = true := by
      unfold rustEndsWith
      rw [hd]
      simp [List.isSuffixOf, List.isPrefixOf]
    have hsplit : rustSplit (FlatMember.render (.const s)) '|' =
        [FlatMember.render (.const s)] := by
      unfold rustSplit
      rw [splitOnCharAux_no_sep '|' _ []
        (member_no_pipe (.const s) ⟨hne, fun c hc => ⟨hall c hc |>.1, (hall c hc).2⟩⟩)]
      simp
    have h5 := constStrip s hne (fun c hc => (hall c hc).1)
    rw [parseTypeAux_succ]
    simp [h1, h3, h4, hsplit, h5, FlatMember.value]

/-- Pointwise: trimming and parsing each member syntax yields its value. -/
theorem map_members_value (ms : List FlatMember) (g : Nat)
    (hwf : ∀ m ∈ ms, m.wf) :
    ms.map (fun m => MainRs.parseTypeAux (g + 1) (rustTrim m.render)) =
      ms.map FlatMember.value := by
  induction ms with
  | nil => rfl
  | cons m ms ih =>
    simp only [List.map_cons]
    rw [rustTrim_id _ (member_no_ws m (hwf m (by simp)))]
    rw [mainMember g m (hwf m (by simp))]
    rw [ih (fun x hx => hwf x (by simp [hx]))]

/-- The `main.rs` type parser on a well-formed flat union: the same member
values, except that a single member is returned bare instead of wrapped in a
singleton `OneOf`. -/
theorem mainParse_flatUnion (ms : List FlatMember) (hne : ms ≠ [])
    (hwf : ∀ m ∈ ms, m.wf) :
    MainRs.parse_type (renderUnion ms) =
      collapseSingletonOneOf (.OneOf (ms.map FlatMember.value)) := by
  rcases ms with _ | ⟨m, ms⟩
  · exact absurd rfl hne
  rcases ms with _ | ⟨m2, ms⟩
  · show MainRs.parse_type (renderUnion [m]) = _
    have hr : renderUnion [m] = m.render := rfl
    rw [hr]
    unfold MainRs.parse_type
    rw [mainMember _ m (hwf m (by simp))]
    rcases m with s | s <;> rfl
  · obtain ⟨c0, cs0, hhd, hc0b⟩ := member_head_exists m (hwf m (by simp))
    have hsdata : (renderUnion (m :: m2 :: ms)).data =
        c0 :: (cs0 ++ unionTailChars (m2 :: ms)) := by
      rw [renderUnion_cons, hhd]
      simp
    have h1 : rustStartsWith (renderUnion (m :: m2 :: ms)) "[" = false :=
      rustStartsWith_head_ne _ "[" c0 '[' _ [] hsdata rfl hc0b
    have h2 : rustSplit (renderUnion (m :: m2 :: ms)) '|' =
        (m :: m2 :: ms).map FlatMember.render := rustSplit_union m (m2 :: ms) hwf
    have hL : (renderUnion (m :: m2 :: ms)).data.length =
        (cs0 ++ unionTailChars (m2 :: ms)).length + 1 := by
      rw [hsdata]
      simp
    unfold MainRs.parse_type
    rw [hL, parseTypeAux_succ]
    rw [h1]
    simp only [Bool.false_and, Bool.false_eq_true, if_false]
    rw [h2]
    have hlen : ((m :: m2 :: ms).map FlatMember.render).length > 1 := by
      simp only [List.length_map, List.length_cons]
      omega
    rw [if_pos hlen]
    rw [List.map_map]
    have hmap :
        ((m :: m2 :: ms).map
          ((fun t => MainRs.parseTypeAux
            ((cs0 ++ unionTailChars (m2 :: ms)).length + 1) (rustTrim t)) ∘
              FlatMember.render)) =
        (m :: m2 :: ms).map FlatMember.value := by
      rw [show ((fun t => MainRs.parseTypeAux
          ((cs0 ++ unionTailChars (m2 :: ms)).length + 1) (rustTrim t)) ∘
            FlatMember.render) =
          (fun m => MainRs.parseTypeAux
            ((cs0 ++ unionTailChars (m2 :: ms)).length + 1) (rustTrim m.render))
        from rfl]
      exact map_members_value _ _ hwf
    rw [hmap]
    rfl

/-- C10 (amended): the two type parsers are not structurally equivalent (see
the counterexample), but on the flat-union fragment — one or more
`|`-separated members, each a nonempty dot-free identifier or a
backtick-quoted such identifier — both succeed and they agree up to the PEG
parser's top-level singleton-`OneOf` wrapper: the PEG result is always
`OneOf` of the member values, and the `main.rs` result is the same value with
a singleton `OneOf` collapsed to its only member.  Outside this fragment they
genuinely diverge (dotted identifiers, dictionary literals, bracket/union
interactions). -/
theorem c10_flat_union_agreement (ms : List FlatMember) (hne : ms ≠ [])
    (hwf : ∀ m ∈ ms, m.wf) :
    ConvertRs.parse_type (renderUnion ms) =
      some (.OneOf (ms.map FlatMember.value)) ∧
    MainRs.parse_type (renderUnion ms) =
      collapseSingletonOneOf (.OneOf (ms.map FlatMember.value)) :=
  ⟨convertParse_flatUnion ms hne hwf, mainParse_flatUnion ms hne hwf⟩

/-- Witness for C10 (amended) at the two-member union `a|\x60b\x60`. -/
theorem c10_flat_union_agreement_witness :
    ([FlatMember.key "a", FlatMember.const "b"] ≠ []) ∧
    (∀ m ∈ [FlatMember.key "a", FlatMember.const "b"], m.wf) ∧
    (ConvertRs.parse_type (renderUnion [FlatMember.key "a", FlatMember.const "b"]) =
       some (.OneOf [.Ref "a", .Constant "b"]) ∧
     MainRs.parse_type (renderUnion [FlatMember.key "a", FlatMember.const "b"]) =
       collapseSingletonOneOf (.OneOf [.Ref "a", .Constant "b"])) := by
  have hwf : ∀ m ∈ [FlatMember.key "a", FlatMember.const "b"], m.wf := by
    intro m hm
    simp only [List.mem_cons, List.not_mem_nil, or_false] at hm
    rcases hm with rfl | rfl
    · exact ⟨by decide, by decide⟩
    · exact ⟨by decide, by decide⟩
  exact ⟨by simp, hwf,
    c10_flat_union_agreement [FlatMember.key "a", FlatMember.const "b"]
      (by simp) hwf⟩
